import Mathlib

set_option linter.unusedVariables false

/-!
Verification of the version-notes generator (`scripts/gen_version_notes.py`).

The script walks an XML registry twice (once for entry type "command" with
the `FullNote` formatter, once for "enum" with `ShortNote`), classifies every
API symbol by the feature version or extension that introduced it and by an
optional "deprecated in OpenCL X.Y" require-group comment, and writes one
`<name>.asciidoc` file per symbol.

The registry tree is embedded structurally: a registry is a list of feature
containers (attribute `number`) and extension containers (attribute `name`),
each holding require groups with an optional free-text `comment` attribute
and child entries carrying a tag ("command" or "enum") and a `name`.

Python string operations are embedded exactly:
  * `comment.split(" ")` splits on every single space character, keeping
    empty pieces (`splitOnSpaceChars`);
  * `" ".join(ws)` is `joinSpace`;
  * `words[-4:-1]` is `(ws.drop (ws.length - 4)).dropLast` (Python negative
    slices clamp the start at 0 and stop before the last element);
  * `words[-1]` is `ws.getLastD ""` (`split` never returns an empty list);
  * `added_in[0:3]` is the first three characters (`take3`);
  * the substring test `"deprecated in OpenCL" in comment` is `hasSubstr`.

A Python `assert` failure aborts the run; the processing loop is therefore
embedded in the `Except` monad, the error carrying the state (in particular
the files already written) at the moment of the abort.
-/

/-- One symbol entry (`<command name=.../>` or `<enum name=.../>`) inside a
require group; `tag` is the XML element tag, i.e. the entry type. -/
structure RegEntry where
  tag : String
  name : String
deriving DecidableEq

/-- A `<require>` group: an optional `comment` attribute and child entries. -/
structure RegRequire where
  comment : Option String
  entries : List RegEntry
deriving DecidableEq

/-- A `<feature>` container; the script reads its `number` attribute. -/
structure RegFeature where
  number : String
  requires : List RegRequire
deriving DecidableEq

/-- An `<extension>` container; the script reads its `name` attribute. -/
structure RegExtension where
  name : String
  requires : List RegRequire
deriving DecidableEq

/-- The parsed registry document.  In document order all features precede
all extensions, matching `cl.xml` (`<feature>` elements come before the
`<extensions>` block). -/
structure Registry where
  features : List RegFeature
  extensions : List RegExtension
deriving DecidableEq

/-- All require groups of the document in document order; the search
`spec.findall('.//require[@comment]/...')` ranges over these. -/
def allRequires (reg : Registry) : List RegRequire :=
  reg.features.flatMap (fun f => f.requires) ++ reg.extensions.flatMap (fun x => x.requires)

/-- `feature.findall(f'.//{entry_type}')`: all entries of the given tag
inside a container's require groups, in document order. -/
def kindEntries (rs : List RegRequire) (entry_type : String) : List RegEntry :=
  rs.flatMap (fun r => r.entries.filter (fun e => e.tag == entry_type))

/-- `spec.findall('.//require[@comment]/%s[@name="%s"]/..')`: the comments of
all require groups that carry a `comment` attribute and contain a child of
the given tag and name (ElementTree's `..` step deduplicates, so each
matching group is returned once, in document order). -/
def matchingComments (rs : List RegRequire) (entry_type name : String) : List String :=
  rs.filterMap (fun r =>
    match r.comment with
    | some c =>
        if r.entries.any (fun e => e.tag == entry_type && e.name == name) then some c else none
    | none => none)

/-- Python `comment.split(" ")` on a character list: split at every single
space character, keeping empty pieces. -/
def splitOnSpaceChars : List Char → List (List Char)
  | [] => [[]]
  | c :: rest =>
    match splitOnSpaceChars rest with
    | [] => [[]]
    | w :: ws => if c = ' ' then [] :: w :: ws else (c :: w) :: ws

/-- Python `comment.split(" ")`. -/
def words (c : String) : List String :=
  (splitOnSpaceChars c.data).map String.mk

/-- Python `" ".join(ws)`. -/
def joinSpace : List String → String
  | [] => ""
  | w :: ws => ws.foldl (fun a b => a ++ " " ++ b) w

/-- Python `" ".join(words[-4:-1])` for `words = comment.split(" ")`. -/
def sliceOf (c : String) : String :=
  joinSpace (((words c).drop ((words c).length - 4)).dropLast)

/-- Python `words[-1]` (`split` never yields an empty list). -/
def lastWordOf (c : String) : String :=
  (words c).getLastD ""

/-- Substring test on character lists (Python `pat in hay`). -/
def hasSubstr (hay pat : List Char) : Bool :=
  match hay with
  | [] => pat.isEmpty
  | c :: t => pat.isPrefixOf (c :: t) || hasSubstr t pat

/-- The marker phrase looked up inside require-group comments. -/
def marker : String := "deprecated in OpenCL"

/-- Python `"deprecated in OpenCL" in comment`. -/
def containsMarker (c : String) : Bool :=
  hasSubstr c.data marker.data

/-- Python `s[0:3]`. -/
def take3 (s : String) : String :=
  String.mk (s.data.take 3)

/-- The two defensive `assert` statements in `process_xml`. -/
inductive AssertError where
  | markerFormat
  | doubleDeprecation
deriving DecidableEq

/-- One iteration of the `for category in categories:` loop: skip comments
without the marker phrase; otherwise first assert that the marker phrase
occupies the fourth- through second-from-last words, then assert that no
deprecating version was recorded yet, then record the trailing word.
A previous assertion failure is preserved (the Python loop has died). -/
def scanStep (acc : Except AssertError (Option String)) (comment : String) :
    Except AssertError (Option String) :=
  match acc with
  | .error e => .error e
  | .ok deprecated_by =>
    if containsMarker comment then
      if sliceOf comment == marker then
        match deprecated_by with
        | some _ => .error .doubleDeprecation
        | none => .ok (some (lastWordOf comment))
      else .error .markerFormat
    else .ok deprecated_by

/-- The whole `categories` loop of `process_xml` for one feature entry:
the resulting `deprecated_by` value, or the assertion that fired. -/
def scanDeprecation (rs : List RegRequire) (entry_type name : String) :
    Except AssertError (Option String) :=
  (matchingComments rs entry_type name).foldl scanStep (Except.ok none)

/-- `deprecated_by` as used by a successful run (`none` is never observable
together with an assertion failure, which aborts the run). -/
def dep0 (rs : List RegRequire) (entry_type name : String) : Option String :=
  match scanDeprecation rs entry_type name with
  | .ok d => d
  | .error _ => none

/-- `GetHeader()` of the script. -/
def GetHeader : String :=
  "// Copyright 2017-2023 The Khronos Group. This work is licensed under a\n// Creative Commons Attribution 4.0 International License; see\n// http://creativecommons.org/licenses/by/4.0/\n"

/-- `GetFooter()` of the script. -/
def GetFooter : String := "\n"

/-- `FullNote(name, added_in, deprecated_by)`: the verbose note used for
commands.  `added_in[0:3] != 'cl_'` decides between a core version and an
extension name. -/
def FullNote (name added_in : String) (deprecated_by : Option String) : String :=
  if added_in == "1.0" then
    match deprecated_by with
    | none => "\n// Intentionally empty, " ++ name ++ " has always been present."
    | some d =>
        "\nIMPORTANT: \x7b" ++ name ++ "\x7d is <<unified-spec, deprecated by>> version " ++
          d ++ "."
  else if take3 added_in != "cl_" then
    match deprecated_by with
    | none =>
        "\nIMPORTANT: \x7b" ++ name ++ "\x7d is <<unified-spec, missing before>> version " ++
          added_in ++ "."
    | some d =>
        "\nIMPORTANT: \x7b" ++ name ++ "\x7d is <<unified-spec, missing before>> version " ++
          added_in ++ " and <<unified-spec, deprecated by>> version " ++ d ++ "."
  else
    "\nIMPORTANT: " ++ name ++ " requires " ++ added_in ++ "."

/-- `ShortNote(name, added_in, deprecated_by)`: the terse note used for
enums; same branching as `FullNote`. -/
def ShortNote (name added_in : String) (deprecated_by : Option String) : String :=
  if added_in == "1.0" then
    match deprecated_by with
    | none => "// Intentionally empty, " ++ name ++ " has always been present."
    | some d => "<<unified-spec, Deprecated by>> version " ++ d ++ "."
  else if take3 added_in != "cl_" then
    match deprecated_by with
    | none => "<<unified-spec, Missing before>> version " ++ added_in ++ "."
    | some d =>
        "<<unified-spec, Missing before>> version " ++ added_in ++
          " and <<unified-spec, deprecated by>> version " ++ d ++ "."
  else
    name ++ " requires " ++ added_in ++ "."

/-- First warning line printed when an extension entry was already seen. -/
def warnLine1 (name : String) : String :=
  "WARNING: " ++ name ++ " exists as both a core version and extension API in the XML"

/-- Second warning line printed when an extension entry was already seen. -/
def warnLine2 : String :=
  "This is not currently handled correctly - only the core version dependency is noted"

/-- The output file name for a symbol (the output directory is irrelevant
to the properties verified here). -/
def versionFileName (name : String) : String :=
  name ++ ".asciidoc"

/-- The full content written to a symbol's file. -/
def mkFileContent (printer : String → String → Option String → String)
    (name added_in : String) (deprecated_by : Option String) : String :=
  GetHeader ++ printer name added_in deprecated_by ++ GetFooter

/-- The mutable state of one `process_xml` invocation: the three counters,
the `seen_apis` set, plus the observable effects (files written so far, in
chronological order, and warning lines printed so far). -/
structure ProcState where
  numberOfEntries : Nat
  numberOfNewEntries : Nat
  numberOfDeprecatedEntries : Nat
  seen_apis : List String
  writes : List (String × String)
  warnings : List String
deriving DecidableEq

/-- The state at the start of a `process_xml` invocation. -/
def initState : ProcState :=
  { numberOfEntries := 0, numberOfNewEntries := 0, numberOfDeprecatedEntries := 0,
    seen_apis := [], writes := [], warnings := [] }

/-- `seen_apis.add(name)`, the file write and the two conditional counter
increments performed for an entry that is actually processed. -/
def writeEntry (printer : String → String → Option String → String)
    (st : ProcState) (name added_in : String) (deprecated_by : Option String) : ProcState :=
  { st with
    seen_apis := name :: st.seen_apis,
    writes := st.writes ++ [(versionFileName name, mkFileContent printer name added_in deprecated_by)],
    numberOfNewEntries := st.numberOfNewEntries + (if added_in == "1.0" then 0 else 1),
    numberOfDeprecatedEntries :=
      st.numberOfDeprecatedEntries + (match deprecated_by with | none => 0 | some _ => 1) }

/-- The container category an entry was reached through, together with the
attribute `process_xml` reads from that container (`number` for features,
`name` for extensions). -/
inductive Origin where
  | feature (number : String)
  | extensionName (name : String)
deriving DecidableEq

/-- The body of the innermost loop of `process_xml` for one entry.
For a feature entry: bump the occurrence counter, run the `categories`
deprecation scan (whose assertions may abort the run), mark the name seen
and write the note.  For an extension entry: bump the counter, then either
warn and skip (name already seen) or mark seen and write the note with no
deprecation. -/
def procEntry (reg : Registry) (entry_type : String)
    (printer : String → String → Option String → String)
    (origin : Origin) (st : ProcState) (e : RegEntry) :
    Except (AssertError × ProcState) ProcState :=
  let name := e.name
  let st := { st with numberOfEntries := st.numberOfEntries + 1 }
  match origin with
  | .feature number =>
    match scanDeprecation (allRequires reg) entry_type name with
    | .error a => .error (a, st)
    | .ok deprecated_by => .ok (writeEntry printer st name number deprecated_by)
  | .extensionName extName =>
    if st.seen_apis.contains name then
      .ok { st with warnings := st.warnings ++ [warnLine1 name, warnLine2] }
    else
      .ok (writeEntry printer st name extName none)

/-- The summary line printed at the end of `process_xml`. -/
def summaryLine (entry_type : String) (st : ProcState) : String :=
  "Found " ++ toString st.numberOfEntries ++ " API " ++ entry_type ++ "s, " ++
    toString st.numberOfNewEntries ++ " newer than 1.0, " ++
    toString st.numberOfDeprecatedEntries ++ " are deprecated."

/-- `process_xml(spec, entry_type, note_printer)`: iterate the feature
containers, then the extension containers, processing each contained entry
of the requested type; finally print the summary line.  (The XPath
container query only selects containers owning at least one entry of the
requested type; containers without one contribute no loop iterations, so
folding over all containers is the same computation.)  The result is the
final state together with the summary line, or the assertion failure and
the state (in particular the files already written) at the abort. -/
def processXml (reg : Registry) (entry_type : String)
    (printer : String → String → Option String → String) :
    Except (AssertError × ProcState) (ProcState × String) := do
  let st1 ← reg.features.foldlM
    (fun st f => (kindEntries f.requires entry_type).foldlM
      (fun st e => procEntry reg entry_type printer (Origin.feature f.number) st e) st)
    initState
  let st2 ← reg.extensions.foldlM
    (fun st x => (kindEntries x.requires entry_type).foldlM
      (fun st e => procEntry reg entry_type printer (Origin.extensionName x.name) st e) st)
    st1
  pure (st2, summaryLine entry_type st2)

/-- The `__main__` block: `process_xml(spec, "command", FullNote)` followed
by `process_xml(spec, "enum", ShortNote)`.  Each invocation starts from a
fresh state; only the file system is shared between the two passes. -/
def runMain (reg : Registry) :
    Except (AssertError × ProcState) ((ProcState × String) × (ProcState × String)) := do
  let p1 ← processXml reg "command" FullNote
  let p2 ← processXml reg "enum" ShortNote
  pure (p1, p2)

/-- The content a file holds after a chronological list of writes (later
writes overwrite earlier ones; `none` if the file was never written). -/
def fileContent (log : List (String × String)) (f : String) : Option String :=
  log.foldl (fun acc w => if w.fst == f then some w.snd else acc) none

/-- How many times a given file was written. -/
def writesToCount (log : List (String × String)) (f : String) : Nat :=
  (log.filter (fun w => w.fst == f)).length

/-- How many warning lines were printed about a given name. -/
def warnCount (ws : List String) (name : String) : Nat :=
  ws.countP (fun s => s == warnLine1 name)

/-- `true` on a run that finished without an assertion failure. -/
def isOkb {ε α : Type} (r : Except ε α) : Bool :=
  match r with
  | .ok _ => true
  | .error _ => false

/-- `true` on a run that aborted with an assertion failure. -/
def isErrb {ε α : Type} (r : Except ε α) : Bool :=
  match r with
  | .ok _ => false
  | .error _ => true

/-- The content of a file after a successful `process_xml` run. -/
def fcOf (r : Except (AssertError × ProcState) (ProcState × String)) (f : String) :
    Option String :=
  match r with
  | .ok (st, _) => fileContent st.writes f
  | .error _ => none

/-- The chronological write log of a successful `process_xml` run. -/
def writesOf (r : Except (AssertError × ProcState) (ProcState × String)) :
    List (String × String) :=
  match r with
  | .ok (st, _) => st.writes
  | .error _ => []

/-- The warning lines of a successful `process_xml` run. -/
def warnsOf (r : Except (AssertError × ProcState) (ProcState × String)) : List String :=
  match r with
  | .ok (st, _) => st.warnings
  | .error _ => []

/-- The summary line of a successful `process_xml` run. -/
def summaryOf (r : Except (AssertError × ProcState) (ProcState × String)) : Option String :=
  match r with
  | .ok (_, s) => some s
  | .error _ => none

/-- The files already written when a run aborted. -/
def errStWrites (r : Except (AssertError × ProcState) (ProcState × String)) :
    List (String × String) :=
  match r with
  | .ok _ => []
  | .error (_, st) => st.writes

/-!
### Flattened view of the processing loops

`process_xml` is two nested loops: containers (features before extensions),
then entries of the requested type inside each container.  The flattened
occurrence list `occsOf` enumerates the visited entries in visiting order,
each paired with the container attribute the loop body reads.  The pure
recursion `simEvents` replays the loop body over that list, producing the
file-write and skip events; `mkFinal` packages the resulting state.
-/

/-- One visited entry occurrence: its container category and its name. -/
structure Occ where
  origin : Origin
  name : String
deriving DecidableEq

/-- The loop body applied to one occurrence (it only reads the entry name). -/
def stepOcc (reg : Registry) (entry_type : String)
    (printer : String → String → Option String → String)
    (st : ProcState) (o : Occ) : Except (AssertError × ProcState) ProcState :=
  procEntry reg entry_type printer o.origin st ⟨entry_type, o.name⟩

/-- Folding the loop body over a list of occurrences. -/
def runOccs (reg : Registry) (entry_type : String)
    (printer : String → String → Option String → String)
    (st : ProcState) (L : List Occ) : Except (AssertError × ProcState) ProcState :=
  L.foldlM (stepOcc reg entry_type printer) st

/-- The occurrences contributed by the feature containers, in order. -/
def featPart (reg : Registry) (entry_type : String) : List Occ :=
  reg.features.flatMap
    (fun f => (kindEntries f.requires entry_type).map
      (fun e => ⟨Origin.feature f.number, e.name⟩))

/-- The occurrences contributed by the extension containers, in order. -/
def extPart (reg : Registry) (entry_type : String) : List Occ :=
  reg.extensions.flatMap
    (fun x => (kindEntries x.requires entry_type).map
      (fun e => ⟨Origin.extensionName x.name, e.name⟩))

/-- All occurrences of one `process_xml` invocation, in visiting order. -/
def occsOf (reg : Registry) (entry_type : String) : List Occ :=
  featPart reg entry_type ++ extPart reg entry_type

/-- The feature version numbers attached to the occurrences of a given
name, in visiting order. -/
def featNums (L : List Occ) (name : String) : List String :=
  L.filterMap (fun o =>
    match o.origin with
    | .feature v => if o.name == name then some v else none
    | .extensionName _ => none)

/-- The extension names attached to the occurrences of a given name, in
visiting order. -/
def extNames (L : List Occ) (name : String) : List String :=
  L.filterMap (fun o =>
    match o.origin with
    | .extensionName x => if o.name == name then some x else none
    | .feature _ => none)

/-- The version numbers of the feature containers a symbol name is
reachable from (with multiplicity, in visiting order). -/
def featOccsOf (reg : Registry) (entry_type name : String) : List String :=
  featNums (occsOf reg entry_type) name

/-- The names of the extension containers a symbol name is reachable from
(with multiplicity, in visiting order). -/
def extOccsOf (reg : Registry) (entry_type name : String) : List String :=
  extNames (occsOf reg entry_type) name

/-- Whether an occurrence comes from a feature container. -/
def isFeatOcc (o : Occ) : Bool :=
  match o.origin with
  | .feature _ => true
  | .extensionName _ => false

/-- Observable events of one invocation: a file write (name, `added_in`,
`deprecated_by`) or a skipped duplicate (warning, no write). -/
inductive Ev where
  | wr (name added_in : String) (deprecated_by : Option String)
  | sk (name : String)
deriving DecidableEq

/-- Pure replay of the loop body over the occurrence list, assuming no
assertion fires: feature occurrences always write (their `deprecated_by`
is the scan result); extension occurrences write when unseen and are
skipped with a warning otherwise. -/
def simEvents (reg : Registry) (entry_type : String) : List String → List Occ → List Ev
  | _, [] => []
  | seen, o :: L =>
    match o.origin with
    | .feature num =>
        Ev.wr o.name num (dep0 (allRequires reg) entry_type o.name) ::
          simEvents reg entry_type (o.name :: seen) L
    | .extensionName x =>
        if seen.contains o.name then
          Ev.sk o.name :: simEvents reg entry_type seen L
        else
          Ev.wr o.name x none :: simEvents reg entry_type (o.name :: seen) L

/-- The `seen_apis` list after replaying the occurrence list. -/
def seenAfter : List String → List Occ → List String
  | seen, [] => seen
  | seen, o :: L =>
    match o.origin with
    | .feature _ => seenAfter (o.name :: seen) L
    | .extensionName _ =>
        if seen.contains o.name then seenAfter seen L
        else seenAfter (o.name :: seen) L

/-- The chronological file writes of an event list. -/
def evWrites (printer : String → String → Option String → String)
    (es : List Ev) : List (String × String) :=
  es.filterMap (fun e =>
    match e with
    | .wr n a d => some (versionFileName n, mkFileContent printer n a d)
    | .sk _ => none)

/-- The warning lines of an event list (two lines per skip). -/
def evWarnings (es : List Ev) : List String :=
  es.flatMap (fun e =>
    match e with
    | .sk n => [warnLine1 n, warnLine2]
    | .wr _ _ _ => [])

/-- The `numberOfNewEntries` contribution of an event list. -/
def evNew (es : List Ev) : Nat :=
  es.countP (fun e =>
    match e with
    | .wr _ a _ => !(a == "1.0")
    | .sk _ => false)

/-- The `numberOfDeprecatedEntries` contribution of an event list. -/
def evDep (es : List Ev) : Nat :=
  es.countP (fun e =>
    match e with
    | .wr _ _ d => d.isSome
    | .sk _ => false)

/-- How many events write the file of a given name. -/
def evWrCount (name : String) (es : List Ev) : Nat :=
  es.countP (fun e =>
    match e with
    | .wr n _ _ => n == name
    | .sk _ => false)

/-- How many events skip a given name. -/
def evSkCount (name : String) (es : List Ev) : Nat :=
  es.countP (fun e =>
    match e with
    | .sk n => n == name
    | .wr _ _ _ => false)

/-- The state an occurrence list leads to when no assertion fires. -/
def mkFinal (reg : Registry) (entry_type : String)
    (printer : String → String → Option String → String)
    (st : ProcState) (L : List Occ) : ProcState :=
  { numberOfEntries := st.numberOfEntries + L.length,
    numberOfNewEntries :=
      st.numberOfNewEntries + evNew (simEvents reg entry_type st.seen_apis L),
    numberOfDeprecatedEntries :=
      st.numberOfDeprecatedEntries + evDep (simEvents reg entry_type st.seen_apis L),
    seen_apis := seenAfter st.seen_apis L,
    writes := st.writes ++ evWrites printer (simEvents reg entry_type st.seen_apis L),
    warnings := st.warnings ++ evWarnings (simEvents reg entry_type st.seen_apis L) }

/-- The content a list of feature-version occurrences of one name leads to:
nothing when there is none, otherwise the note of the last one. -/
def lastNote (printer : String → String → Option String → String)
    (dep : Option String) (name : String) (vs : List String) : Option String :=
  match vs with
  | [] => none
  | v :: vs => some (mkFileContent printer name ((v :: vs).getLastD "") dep)

/-- The content a list of extension occurrences of one unseen name leads
to: the note of the first one. -/
def headNote (printer : String → String → Option String → String)
    (name : String) (xs : List String) : Option String :=
  match xs with
  | [] => none
  | x :: _ => some (mkFileContent printer name x none)

/-- One write happens iff the occurrence list is non-empty. -/
def oneIf (l : List String) : Nat :=
  match l with
  | [] => 0
  | _ :: _ => 1

/-- The file a symbol's name holds after the first (command) pass of the
whole run. -/
def midFileOf (r : Except (AssertError × ProcState) ((ProcState × String) × (ProcState × String)))
    (f : String) : Option String :=
  match r with
  | .ok (p1, _) => fileContent p1.1.writes f
  | .error _ => none

/-- The file a symbol's name holds after both passes of the whole run. -/
def finalFileOf
    (r : Except (AssertError × ProcState) ((ProcState × String) × (ProcState × String)))
    (f : String) : Option String :=
  match r with
  | .ok (p1, p2) => fileContent (p1.1.writes ++ p2.1.writes) f
  | .error _ => none

/-- All warning lines printed by the whole run. -/
def warnsAllOf
    (r : Except (AssertError × ProcState) ((ProcState × String) × (ProcState × String))) :
    List String :=
  match r with
  | .ok (p1, p2) => p1.1.warnings ++ p2.1.warnings
  | .error _ => []

/-! ### Concrete registries used by counterexamples and witnesses -/

/-- Two feature containers (versions "1.0" and "2.0") both requiring the
command `f`; no extensions. -/
def RC1 : Registry :=
  ⟨[⟨"1.0", [⟨none, [⟨"command", "f"⟩]⟩]⟩, ⟨"2.0", [⟨none, [⟨"command", "f"⟩]⟩]⟩], []⟩

/-- Two features ("1.0", "2.0") and one extension, all requiring `f`. -/
def RC1w : Registry :=
  ⟨[⟨"1.0", [⟨none, [⟨"command", "f"⟩]⟩]⟩, ⟨"2.0", [⟨none, [⟨"command", "f"⟩]⟩]⟩],
   [⟨"cl_khr_x", [⟨none, [⟨"command", "f"⟩]⟩]⟩]⟩

/-- One feature whose second require group carries a deprecation comment. -/
def RC2 : Registry :=
  ⟨[⟨"1.0", [⟨none, [⟨"command", "clFoo"⟩]⟩,
             ⟨some "was deprecated in OpenCL 2.0", [⟨"command", "clFoo"⟩]⟩]⟩], []⟩

/-- One extension with two require groups, each carrying a deprecation
comment for the enum `CL_FOO`. -/
def RC3 : Registry :=
  ⟨[], [⟨"cl_ext", [⟨some "x deprecated in OpenCL 2.0", [⟨"enum", "CL_FOO"⟩]⟩,
                    ⟨some "y deprecated in OpenCL 2.1", [⟨"enum", "CL_FOO"⟩]⟩]⟩]⟩

/-- One feature owning `CL_X`, with two require groups whose comments both
claim deprecation of `CL_X`. -/
def RC3w : Registry :=
  ⟨[⟨"1.0", [⟨none, [⟨"enum", "CL_X"⟩]⟩,
             ⟨some "a deprecated in OpenCL 1.1", [⟨"enum", "CL_X"⟩]⟩,
             ⟨some "b deprecated in OpenCL 1.2", [⟨"enum", "CL_X"⟩]⟩]⟩], []⟩

/-- A single extension whose `name` attribute does not start with `cl_`. -/
def RC4 : Registry := ⟨[], [⟨"2.0", [⟨none, [⟨"command", "f"⟩]⟩]⟩]⟩

/-- A single `cl_`-prefixed extension owning `f`, whose require group even
carries a deprecation-marker comment. -/
def RC4w : Registry :=
  ⟨[], [⟨"cl_khr_fp64", [⟨some "f deprecated in OpenCL 2.0", [⟨"command", "f"⟩]⟩]⟩]⟩

/-- The spec's own example: `clEnqueueSVMMigrateMem` introduced in feature
version "2.1", no deprecation. -/
def RC5 : Registry :=
  ⟨[⟨"2.1", [⟨none, [⟨"command", "clEnqueueSVMMigrateMem"⟩]⟩]⟩], []⟩

/-- The spec's own example: enum `CL_FOO` introduced in "1.0", deprecated
by a require-group comment ending "deprecated in OpenCL 3.0". -/
def RC7 : Registry :=
  ⟨[⟨"1.0", [⟨none, [⟨"enum", "CL_FOO"⟩]⟩,
             ⟨some "x deprecated in OpenCL 3.0", [⟨"enum", "CL_FOO"⟩]⟩]⟩], []⟩

/-- Two features newer than "1.0" both requiring the command `f`. -/
def RC8 : Registry :=
  ⟨[⟨"2.0", [⟨none, [⟨"command", "f"⟩]⟩]⟩, ⟨"3.0", [⟨none, [⟨"command", "f"⟩]⟩]⟩], []⟩

/-- One feature introducing the name `X` both as a command and as an enum. -/
def RC9 : Registry :=
  ⟨[⟨"2.0", [⟨none, [⟨"command", "X"⟩, ⟨"enum", "X"⟩]⟩]⟩], []⟩

/-- One feature owning `clX`, with a require-group comment that contains
the marker phrase but not immediately before the trailing token. -/
def RC10 : Registry :=
  ⟨[⟨"1.0", [⟨none, [⟨"command", "clX"⟩]⟩,
             ⟨some "deprecated in OpenCL 2.0 tail", [⟨"command", "clX"⟩]⟩]⟩], []⟩

theorem runOccs_nil (reg : Registry) (et : String)
    (printer : String → String → Option String → String) (st : ProcState) :
    runOccs reg et printer st [] = .ok st := rfl

theorem runOccs_cons (reg : Registry) (et : String)
    (printer : String → String → Option String → String) (st : ProcState)
    (o : Occ) (L : List Occ) :
    runOccs reg et printer st (o :: L) =
      (stepOcc reg et printer st o) >>= fun s => runOccs reg et printer s L := rfl

theorem runOccs_append (reg : Registry) (et : String)
    (printer : String → String → Option String → String)
    (A B : List Occ) : ∀ st : ProcState,
    runOccs reg et printer st (A ++ B) =
      (runOccs reg et printer st A) >>= fun s => runOccs reg et printer s B := by
  induction A with
  | nil => intro st; rfl
  | cons o A ih =>
    intro st
    rw [List.cons_append, runOccs_cons, runOccs_cons]
    cases stepOcc reg et printer st o with
    | error p => rfl
    | ok s => exact ih s

theorem mkFinal_nil (reg : Registry) (et : String)
    (printer : String → String → Option String → String) (st : ProcState) :
    mkFinal reg et printer st [] = st := by
  simp [mkFinal, simEvents, evNew, evDep, evWrites, evWarnings, seenAfter]

theorem weight_new (b : Bool) (k m : Nat) :
    m + (k + if (!b) = true then 1 else 0) = (m + if b = true then 0 else 1) + k := by
  cases b <;> simp <;> omega

theorem weight_dep (d : Option String) (k m : Nat) :
    m + (k + if d.isSome = true then 1 else 0) =
      (m + match d with | none => 0 | some _ => 1) + k := by
  cases d <;> simp <;> omega

theorem mkFinal_cons_feat (reg : Registry) (et : String)
    (printer : String → String → Option String → String) (st : ProcState)
    (num n : String) (L : List Occ) :
    mkFinal reg et printer st (⟨Origin.feature num, n⟩ :: L) =
      mkFinal reg et printer
        (writeEntry printer { st with numberOfEntries := st.numberOfEntries + 1 }
          n num (dep0 (allRequires reg) et n)) L := by
  simp only [mkFinal, writeEntry, simEvents, seenAfter, evNew, evDep, evWrites, evWarnings,
    List.countP_cons, List.filterMap_cons, List.flatMap_cons, List.length_cons,
    List.nil_append]
  rw [ProcState.mk.injEq]
  refine ⟨by omega, weight_new _ _ _, weight_dep _ _ _, rfl, ?_, rfl⟩
  simp [List.append_assoc]

theorem mkFinal_cons_ext_seen (reg : Registry) (et : String)
    (printer : String → String → Option String → String) (st : ProcState)
    (x n : String) (L : List Occ) (hc : st.seen_apis.contains n = true) :
    mkFinal reg et printer st (⟨Origin.extensionName x, n⟩ :: L) =
      mkFinal reg et printer
        { st with numberOfEntries := st.numberOfEntries + 1,
                  warnings := st.warnings ++ [warnLine1 n, warnLine2] } L := by
  have hsim : simEvents reg et st.seen_apis (⟨Origin.extensionName x, n⟩ :: L) =
      Ev.sk n :: simEvents reg et st.seen_apis L := by
    have hm : n ∈ st.seen_apis := by simpa using hc
    simp [simEvents, hm]
  have hsa : seenAfter st.seen_apis (⟨Origin.extensionName x, n⟩ :: L) =
      seenAfter st.seen_apis L := by
    have hm : n ∈ st.seen_apis := by simpa using hc
    simp [seenAfter, hm]
  simp only [mkFinal, hsim, hsa, evNew, evDep, evWrites, evWarnings,
    List.countP_cons, List.filterMap_cons, List.flatMap_cons, List.length_cons]
  rw [ProcState.mk.injEq]
  refine ⟨by omega, by simp, by simp, rfl, rfl, ?_⟩
  simp [List.append_assoc]

theorem mkFinal_cons_ext_new (reg : Registry) (et : String)
    (printer : String → String → Option String → String) (st : ProcState)
    (x n : String) (L : List Occ) (hc : st.seen_apis.contains n = false) :
    mkFinal reg et printer st (⟨Origin.extensionName x, n⟩ :: L) =
      mkFinal reg et printer
        (writeEntry printer { st with numberOfEntries := st.numberOfEntries + 1 } n x none) L := by
  have hsim : simEvents reg et st.seen_apis (⟨Origin.extensionName x, n⟩ :: L) =
      Ev.wr n x none :: simEvents reg et (n :: st.seen_apis) L := by
    have hm : n ∉ st.seen_apis := by simpa using hc
    simp [simEvents, hm]
  have hsa : seenAfter st.seen_apis (⟨Origin.extensionName x, n⟩ :: L) =
      seenAfter (n :: st.seen_apis) L := by
    have hm : n ∉ st.seen_apis := by simpa using hc
    simp [seenAfter, hm]
  simp only [mkFinal, hsim, hsa, writeEntry, evNew, evDep, evWrites, evWarnings,
    List.countP_cons, List.filterMap_cons, List.flatMap_cons, List.length_cons,
    List.nil_append]
  rw [ProcState.mk.injEq]
  refine ⟨by omega, weight_new _ _ _, by simp, rfl, ?_, rfl⟩
  simp [List.append_assoc]

/-- Characterization of a successful fold over an occurrence list: the
final state is `mkFinal`. -/
theorem runOccs_ok_eq (reg : Registry) (et : String)
    (printer : String → String → Option String → String) (L : List Occ) :
    ∀ st st' : ProcState, runOccs reg et printer st L = .ok st' →
      st' = mkFinal reg et printer st L := by
  induction L with
  | nil =>
    intro st st' h
    rw [runOccs_nil] at h
    cases h
    exact (mkFinal_nil reg et printer st).symm
  | cons o L ih =>
    intro st st' h
    rw [runOccs_cons] at h
    obtain ⟨origin, oname⟩ := o
    cases origin with
    | feature num =>
      have hs : stepOcc reg et printer st ⟨Origin.feature num, oname⟩ =
          match scanDeprecation (allRequires reg) et oname with
          | .error a => .error (a, { st with numberOfEntries := st.numberOfEntries + 1 })
          | .ok d =>
              .ok (writeEntry printer { st with numberOfEntries := st.numberOfEntries + 1 }
                oname num d) := rfl
      rw [hs] at h
      cases hscan : scanDeprecation (allRequires reg) et oname with
      | error a => rw [hscan] at h; exact Except.noConfusion h
      | ok d =>
        rw [hscan] at h
        have h2 : runOccs reg et printer
            (writeEntry printer { st with numberOfEntries := st.numberOfEntries + 1 }
              oname num d) L = .ok st' := h
        have hd : dep0 (allRequires reg) et oname = d := by
          unfold dep0; rw [hscan]
        rw [ih _ _ h2, mkFinal_cons_feat, hd]
    | extensionName x =>
      cases hc : st.seen_apis.contains oname with
      | true =>
        have hs : stepOcc reg et printer st ⟨Origin.extensionName x, oname⟩ =
            .ok { st with numberOfEntries := st.numberOfEntries + 1,
                          warnings := st.warnings ++ [warnLine1 oname, warnLine2] } := by
          have hm : oname ∈ st.seen_apis := by simpa using hc
          simp [stepOcc, procEntry, hm]
        rw [hs] at h
        have h2 : runOccs reg et printer
            { st with numberOfEntries := st.numberOfEntries + 1,
                      warnings := st.warnings ++ [warnLine1 oname, warnLine2] } L = .ok st' := h
        rw [ih _ _ h2, mkFinal_cons_ext_seen reg et printer st x oname L hc]
      | false =>
        have hs : stepOcc reg et printer st ⟨Origin.extensionName x, oname⟩ =
            .ok (writeEntry printer { st with numberOfEntries := st.numberOfEntries + 1 }
              oname x none) := by
          have hm : oname ∉ st.seen_apis := by simpa using hc
          simp [stepOcc, procEntry, hm]
        rw [hs] at h
        have h2 : runOccs reg et printer
            (writeEntry printer { st with numberOfEntries := st.numberOfEntries + 1 }
              oname x none) L = .ok st' := h
        rw [ih _ _ h2, mkFinal_cons_ext_new reg et printer st x oname L hc]

theorem entriesFold_eq (reg : Registry) (et : String)
    (printer : String → String → Option String → String) (orig : Origin) :
    ∀ (es : List RegEntry) (st : ProcState),
    es.foldlM (fun st e => procEntry reg et printer orig st e) st =
      runOccs reg et printer st (es.map (fun e => ⟨orig, e.name⟩)) := by
  intro es
  induction es with
  | nil => intro st; rfl
  | cons e es ih =>
    intro st
    have hl : List.foldlM (fun st e => procEntry reg et printer orig st e) st (e :: es) =
        procEntry reg et printer orig st e >>= fun s =>
          List.foldlM (fun st e => procEntry reg et printer orig st e) s es := rfl
    have hstep : stepOcc reg et printer st ⟨orig, e.name⟩ =
        procEntry reg et printer orig st e := rfl
    rw [hl, List.map_cons, runOccs_cons, hstep]
    cases procEntry reg et printer orig st e with
    | error p => rfl
    | ok s => exact ih s

theorem featFold_eq (reg : Registry) (et : String)
    (printer : String → String → Option String → String) :
    ∀ (fs : List RegFeature) (st : ProcState),
    fs.foldlM (fun st f => (kindEntries f.requires et).foldlM
      (fun st e => procEntry reg et printer (Origin.feature f.number) st e) st) st =
      runOccs reg et printer st (fs.flatMap
        (fun f => (kindEntries f.requires et).map (fun e => ⟨Origin.feature f.number, e.name⟩))) := by
  intro fs
  induction fs with
  | nil => intro st; rfl
  | cons f fs ih =>
    intro st
    have hl : List.foldlM (fun st f => (kindEntries f.requires et).foldlM
        (fun st e => procEntry reg et printer (Origin.feature f.number) st e) st) st (f :: fs) =
        ((kindEntries f.requires et).foldlM
          (fun st e => procEntry reg et printer (Origin.feature f.number) st e) st) >>= fun s =>
          List.foldlM (fun st f => (kindEntries f.requires et).foldlM
            (fun st e => procEntry reg et printer (Origin.feature f.number) st e) st) s fs := rfl
    rw [hl, List.flatMap_cons, runOccs_append, entriesFold_eq]
    cases runOccs reg et printer st
        ((kindEntries f.requires et).map (fun e => ⟨Origin.feature f.number, e.name⟩)) with
    | error p => rfl
    | ok s => exact ih s

theorem extFold_eq (reg : Registry) (et : String)
    (printer : String → String → Option String → String) :
    ∀ (xs : List RegExtension) (st : ProcState),
    xs.foldlM (fun st x => (kindEntries x.requires et).foldlM
      (fun st e => procEntry reg et printer (Origin.extensionName x.name) st e) st) st =
      runOccs reg et printer st (xs.flatMap
        (fun x => (kindEntries x.requires et).map
          (fun e => ⟨Origin.extensionName x.name, e.name⟩))) := by
  intro xs
  induction xs with
  | nil => intro st; rfl
  | cons x xs ih =>
    intro st
    have hl : List.foldlM (fun st x => (kindEntries x.requires et).foldlM
        (fun st e => procEntry reg et printer (Origin.extensionName x.name) st e) st) st (x :: xs) =
        ((kindEntries x.requires et).foldlM
          (fun st e => procEntry reg et printer (Origin.extensionName x.name) st e) st) >>= fun s =>
          List.foldlM (fun st x => (kindEntries x.requires et).foldlM
            (fun st e => procEntry reg et printer (Origin.extensionName x.name) st e) st) s xs := rfl
    rw [hl, List.flatMap_cons, runOccs_append, entriesFold_eq]
    cases runOccs reg et printer st
        ((kindEntries x.requires et).map (fun e => ⟨Origin.extensionName x.name, e.name⟩)) with
    | error p => rfl
    | ok s => exact ih s

theorem featFold_eq2 (reg : Registry) (et : String)
    (printer : String → String → Option String → String) (st : ProcState) :
    reg.features.foldlM (fun st f => (kindEntries f.requires et).foldlM
      (fun st e => procEntry reg et printer (Origin.feature f.number) st e) st) st =
      runOccs reg et printer st (featPart reg et) :=
  featFold_eq reg et printer reg.features st

theorem extFold_eq2 (reg : Registry) (et : String)
    (printer : String → String → Option String → String) (st : ProcState) :
    reg.extensions.foldlM (fun st x => (kindEntries x.requires et).foldlM
      (fun st e => procEntry reg et printer (Origin.extensionName x.name) st e) st) st =
      runOccs reg et printer st (extPart reg et) :=
  extFold_eq reg et printer reg.extensions st

/-- A successful `process_xml` run is exactly the flattened occurrence fold:
the final state is `mkFinal` over `occsOf`, and the summary line is computed
from it. -/
theorem processXml_ok_char (reg : Registry) (et : String)
    (printer : String → String → Option String → String) (st : ProcState) (sum : String)
    (h : processXml reg et printer = .ok (st, sum)) :
    st = mkFinal reg et printer initState (occsOf reg et) ∧ sum = summaryLine et st := by
  unfold processXml at h
  rw [featFold_eq2] at h
  cases hr1 : runOccs reg et printer initState (featPart reg et) with
  | error p => rw [hr1] at h; exact Except.noConfusion h
  | ok st1 =>
    rw [hr1] at h
    have h2 : (reg.extensions.foldlM (fun st x => (kindEntries x.requires et).foldlM
        (fun st e => procEntry reg et printer (Origin.extensionName x.name) st e) st) st1)
        >>= (fun st2 => pure (st2, summaryLine et st2)) = .ok (st, sum) := h
    rw [extFold_eq2] at h2
    cases hr2 : runOccs reg et printer st1 (extPart reg et) with
    | error p => rw [hr2] at h2; exact Except.noConfusion h2
    | ok st2 =>
      rw [hr2] at h2
      have h3 : (Except.ok (st2, summaryLine et st2) :
          Except (AssertError × ProcState) (ProcState × String)) = .ok (st, sum) := h2
      have h4 : (st2, summaryLine et st2) = (st, sum) := by injection h3
      have hst : st = st2 := (congrArg Prod.fst h4).symm
      have hsum : sum = summaryLine et st2 := (congrArg Prod.snd h4).symm
      have hrun : runOccs reg et printer initState (occsOf reg et) = .ok st2 := by
        rw [occsOf, runOccs_append, hr1]
        exact hr2
      refine ⟨?_, ?_⟩
      · rw [hst]
        exact runOccs_ok_eq reg et printer (occsOf reg et) initState st2 hrun
      · rw [hsum, hst]

/-- A failing occurrence fold makes `process_xml` abort with the same
assertion failure and abort state. -/
theorem processXml_err_char (reg : Registry) (et : String)
    (printer : String → String → Option String → String) (p : AssertError × ProcState)
    (h : runOccs reg et printer initState (occsOf reg et) = .error p) :
    processXml reg et printer = .error p := by
  unfold processXml
  rw [featFold_eq2]
  rw [occsOf, runOccs_append] at h
  cases hr1 : runOccs reg et printer initState (featPart reg et) with
  | error q =>
    rw [hr1] at h
    have hq : (Except.error q : Except (AssertError × ProcState) ProcState) = .error p := h
    cases hq
    rfl
  | ok st1 =>
    rw [hr1] at h
    have h2 : runOccs reg et printer st1 (extPart reg et) = .error p := h
    show (reg.extensions.foldlM (fun st x => (kindEntries x.requires et).foldlM
        (fun st e => procEntry reg et printer (Origin.extensionName x.name) st e) st) st1)
        >>= (fun st2 => pure (st2, summaryLine et st2)) = _
    rw [extFold_eq2, h2]
    rfl

theorem strAppend_cancel_right (a b c : String) (h : a ++ c = b ++ c) : a = b := by
  apply String.ext
  have hd := congrArg String.data h
  rw [String.data_append, String.data_append] at hd
  exact List.append_cancel_right hd

theorem vfn_inj (n m : String) (h : versionFileName n = versionFileName m) : n = m :=
  strAppend_cancel_right n m ".asciidoc" h

theorem beq_comm_str (a b : String) : (a == b) = (b == a) := by
  by_cases h : a = b
  · rw [h]
  · have h1 : (a == b) = false := by rw [beq_eq_false_iff_ne]; exact h
    have h2 : (b == a) = false := by rw [beq_eq_false_iff_ne]; exact Ne.symm h
    rw [h1, h2]

theorem vfn_beq (n m : String) : (versionFileName n == versionFileName m) = (n == m) := by
  by_cases h : n = m
  · rw [h]; simp
  · have h1 : (versionFileName n == versionFileName m) = false := by
      rw [beq_eq_false_iff_ne]; exact fun hh => h (vfn_inj n m hh)
    have h2 : (n == m) = false := by rw [beq_eq_false_iff_ne]; exact h
    rw [h1, h2]

theorem warnLine1_inj (n m : String) (h : warnLine1 n = warnLine1 m) : n = m := by
  unfold warnLine1 at h
  have h2 := strAppend_cancel_right _ _ _ h
  apply String.ext
  have hd := congrArg String.data h2
  rw [String.data_append, String.data_append] at hd
  exact List.append_cancel_left hd

theorem warnLine1_beq (n m : String) : (warnLine1 n == warnLine1 m) = (n == m) := by
  by_cases h : n = m
  · rw [h]; simp
  · have h1 : (warnLine1 n == warnLine1 m) = false := by
      rw [beq_eq_false_iff_ne]; exact fun hh => h (warnLine1_inj n m hh)
    have h2 : (n == m) = false := by rw [beq_eq_false_iff_ne]; exact h
    rw [h1, h2]

theorem warnLine1_ne_warnLine2 (n : String) : warnLine1 n ≠ warnLine2 := by
  intro h
  have hd := congrArg (fun s => s.data.head?) h
  simp only [warnLine1, warnLine2, String.data_append] at hd
  rw [List.head?_append, List.head?_append] at hd
  rw [show ("WARNING: ").data.head? = some 'W' from rfl] at hd
  simp [Option.or] at hd

theorem fileContent_foldl_acc (f : String) : ∀ (B : List (String × String)) (acc : Option String),
    B.foldl (fun acc w => if w.fst == f then some w.snd else acc) acc =
      match fileContent B f with
      | some c => some c
      | none => acc := by
  intro B
  induction B with
  | nil => intro acc; rfl
  | cons w B ih =>
    intro acc
    rw [List.foldl_cons]
    rw [ih]
    have hBw : fileContent (w :: B) f =
        match fileContent B f with
        | some c => some c
        | none => if w.fst == f then some w.snd else none := by
      unfold fileContent
      rw [List.foldl_cons]
      exact ih _
    rw [hBw]
    cases hfc : fileContent B f with
    | some c => rfl
    | none => cases hw : (w.fst == f) <;> simp

theorem fileContent_cons (w : String × String) (B : List (String × String)) (f : String) :
    fileContent (w :: B) f =
      match fileContent B f with
      | some c => some c
      | none => if w.fst == f then some w.snd else none := by
  unfold fileContent
  rw [List.foldl_cons]
  exact fileContent_foldl_acc f B _

theorem fileContent_append (A B : List (String × String)) (f : String) :
    fileContent (A ++ B) f =
      match fileContent B f with
      | some c => some c
      | none => fileContent A f := by
  unfold fileContent
  rw [List.foldl_append]
  exact fileContent_foldl_acc f B _

theorem simEvents_append (reg : Registry) (et : String) :
    ∀ (A B : List Occ) (seen : List String),
    simEvents reg et seen (A ++ B) =
      simEvents reg et seen A ++ simEvents reg et (seenAfter seen A) B := by
  intro A
  induction A with
  | nil => intro B seen; rfl
  | cons o A ih =>
    intro B seen
    obtain ⟨orig, n⟩ := o
    cases orig with
    | feature num =>
      rw [List.cons_append]
      show Ev.wr n num _ :: simEvents reg et (n :: seen) (A ++ B) = _
      rw [ih]
      rfl
    | extensionName x =>
      by_cases hm : n ∈ seen
      · have h1 : simEvents reg et seen ((⟨Origin.extensionName x, n⟩ :: A) ++ B) =
            Ev.sk n :: simEvents reg et seen (A ++ B) := by
          rw [List.cons_append]
          simp [simEvents, hm]
        have h2 : simEvents reg et seen (⟨Origin.extensionName x, n⟩ :: A) =
            Ev.sk n :: simEvents reg et seen A := by
          simp [simEvents, hm]
        have h3 : seenAfter seen (⟨Origin.extensionName x, n⟩ :: A) = seenAfter seen A := by
          simp [seenAfter, hm]
        rw [h1, h2, h3, ih]
        rfl
      · have h1 : simEvents reg et seen ((⟨Origin.extensionName x, n⟩ :: A) ++ B) =
            Ev.wr n x none :: simEvents reg et (n :: seen) (A ++ B) := by
          rw [List.cons_append]
          simp [simEvents, hm]
        have h2 : simEvents reg et seen (⟨Origin.extensionName x, n⟩ :: A) =
            Ev.wr n x none :: simEvents reg et (n :: seen) A := by
          simp [simEvents, hm]
        have h3 : seenAfter seen (⟨Origin.extensionName x, n⟩ :: A) =
            seenAfter (n :: seen) A := by
          simp [seenAfter, hm]
        rw [h1, h2, h3, ih]
        rfl

theorem seenAfter_contains (name : String) : ∀ (L : List Occ) (seen : List String),
    (seenAfter seen L).contains name =
      (seen.contains name || L.any (fun o => o.name == name)) := by
  intro L
  induction L with
  | nil =>
    intro seen
    show seen.contains name = (seen.contains name || List.any [] _)
    simp
  | cons o L ih =>
    intro seen
    obtain ⟨orig, n⟩ := o
    have hany : (List.any (⟨orig, n⟩ :: L) (fun o => o.name == name)) =
        ((n == name) || L.any (fun o => o.name == name)) := by
      rw [List.any_cons]
    cases orig with
    | feature num =>
      have hL : seenAfter seen (⟨Origin.feature num, n⟩ :: L) = seenAfter (n :: seen) L := rfl
      rw [hL, ih, hany, List.contains_cons]
      by_cases h : n = name
      · subst h; simp
      · have h1 : (name == n) = false := by rw [beq_eq_false_iff_ne]; exact Ne.symm h
        have h2 : (n == name) = false := by rw [beq_eq_false_iff_ne]; exact h
        rw [h1, h2]
        simp
    | extensionName x =>
      by_cases hm : n ∈ seen
      · have hL : seenAfter seen (⟨Origin.extensionName x, n⟩ :: L) = seenAfter seen L := by
          simp [seenAfter, hm]
        rw [hL, ih, hany]
        by_cases h : n = name
        · subst h
          have hcn : seen.contains n = true := by simpa using hm
          rw [hcn]
          simp
        · have h2 : (n == name) = false := by rw [beq_eq_false_iff_ne]; exact h
          rw [h2]
          simp
      · have hL : seenAfter seen (⟨Origin.extensionName x, n⟩ :: L) =
            seenAfter (n :: seen) L := by
          simp [seenAfter, hm]
        rw [hL, ih, hany, List.contains_cons]
        by_cases h : n = name
        · subst h; simp
        · have h1 : (name == n) = false := by rw [beq_eq_false_iff_ne]; exact Ne.symm h
          have h2 : (n == name) = false := by rw [beq_eq_false_iff_ne]; exact h
          rw [h1, h2]
          simp

theorem warnCount_evWarnings (name : String) : ∀ es : List Ev,
    warnCount (evWarnings es) name = evSkCount name es := by
  intro es
  induction es with
  | nil => rfl
  | cons e es ih =>
    cases e with
    | wr n a d =>
      show warnCount (evWarnings es) name = _
      rw [ih]
      simp [evSkCount, List.countP_cons]
    | sk n =>
      have hev : evWarnings (Ev.sk n :: es) = warnLine1 n :: warnLine2 :: evWarnings es := rfl
      unfold warnCount at *
      rw [hev, List.countP_cons, List.countP_cons, ih]
      have h2 : (warnLine2 == warnLine1 name) = false := by
        rw [beq_eq_false_iff_ne]; exact Ne.symm (warnLine1_ne_warnLine2 name)
      rw [warnLine1_beq, h2]
      unfold evSkCount
      rw [List.countP_cons]
      by_cases h : n = name
      · subst h; simp
      · have h1 : (n == name) = false := by rw [beq_eq_false_iff_ne]; exact h
        rw [h1]
        simp [h]

theorem writesToCount_evWrites (printer : String → String → Option String → String)
    (name : String) : ∀ es : List Ev,
    writesToCount (evWrites printer es) (versionFileName name) = evWrCount name es := by
  intro es
  induction es with
  | nil => rfl
  | cons e es ih =>
    cases e with
    | wr n a d =>
      have hev : evWrites printer (Ev.wr n a d :: es) =
          (versionFileName n, mkFileContent printer n a d) :: evWrites printer es := rfl
      rw [hev]
      unfold writesToCount evWrCount at *
      rw [List.filter_cons, List.countP_cons]
      cases hn : (n == name) with
      | true =>
        have hv : ((versionFileName n, mkFileContent printer n a d).fst ==
            versionFileName name) = true := by
          show (versionFileName n == versionFileName name) = true
          rw [vfn_beq]; exact hn
        simp [hv, hn, ih]
      | false =>
        have hv : ((versionFileName n, mkFileContent printer n a d).fst ==
            versionFileName name) = false := by
          show (versionFileName n == versionFileName name) = false
          rw [vfn_beq]; exact hn
        simp [hv, hn, ih]
    | sk n =>
      have hev : evWrites printer (Ev.sk n :: es) = evWrites printer es := rfl
      rw [hev, ih]
      simp [evWrCount, List.countP_cons]

theorem featPart_all_feat (reg : Registry) (et : String) :
    ∀ o ∈ featPart reg et, isFeatOcc o = true := by
  intro o ho
  simp only [featPart, List.mem_flatMap, List.mem_map] at ho
  obtain ⟨f, hf, e, he, rfl⟩ := ho
  rfl

theorem extPart_all_ext (reg : Registry) (et : String) :
    ∀ o ∈ extPart reg et, isFeatOcc o = false := by
  intro o ho
  simp only [extPart, List.mem_flatMap, List.mem_map] at ho
  obtain ⟨x, hx, e, he, rfl⟩ := ho
  rfl

theorem featNums_append (A B : List Occ) (name : String) :
    featNums (A ++ B) name = featNums A name ++ featNums B name := by
  unfold featNums
  exact List.filterMap_append A B _

theorem extNames_append (A B : List Occ) (name : String) :
    extNames (A ++ B) name = extNames A name ++ extNames B name := by
  unfold extNames
  exact List.filterMap_append A B _

theorem featNums_of_extlist (name : String) : ∀ (E : List Occ),
    (∀ o ∈ E, isFeatOcc o = false) → featNums E name = [] := by
  intro E h
  unfold featNums
  rw [List.filterMap_eq_nil_iff]
  intro o ho
  obtain ⟨orig, n⟩ := o
  cases orig with
  | feature num => exact absurd (h _ ho) (by simp [isFeatOcc])
  | extensionName x => rfl

theorem extNames_of_featlist (name : String) : ∀ (F : List Occ),
    (∀ o ∈ F, isFeatOcc o = true) → extNames F name = [] := by
  intro F h
  unfold extNames
  rw [List.filterMap_eq_nil_iff]
  intro o ho
  obtain ⟨orig, n⟩ := o
  cases orig with
  | extensionName x => exact absurd (h _ ho) (by simp [isFeatOcc])
  | feature num => rfl

theorem featpart_events (reg : Registry) (et : String)
    (printer : String → String → Option String → String) (name : String) :
    ∀ (F : List Occ) (seen : List String), (∀ o ∈ F, isFeatOcc o = true) →
    fileContent (evWrites printer (simEvents reg et seen F)) (versionFileName name) =
        lastNote printer (dep0 (allRequires reg) et name) name (featNums F name) ∧
    evWrCount name (simEvents reg et seen F) = (featNums F name).length ∧
    evSkCount name (simEvents reg et seen F) = 0 := by
  intro F
  induction F with
  | nil => intro seen h; exact ⟨rfl, rfl, rfl⟩
  | cons o F ih =>
    intro seen h
    obtain ⟨orig, n⟩ := o
    cases orig with
    | extensionName x =>
      exact absurd (h _ (List.mem_cons_self _ _)) (by simp [isFeatOcc])
    | feature num =>
      obtain ⟨ihc, ihw, ihs⟩ := ih (n :: seen) (fun o ho => h o (List.mem_cons_of_mem _ ho))
      have hsim : simEvents reg et seen (⟨Origin.feature num, n⟩ :: F) =
          Ev.wr n num (dep0 (allRequires reg) et n) ::
            simEvents reg et (n :: seen) F := rfl
      have hev : evWrites printer (Ev.wr n num (dep0 (allRequires reg) et n) ::
            simEvents reg et (n :: seen) F) =
          (versionFileName n, mkFileContent printer n num (dep0 (allRequires reg) et n)) ::
            evWrites printer (simEvents reg et (n :: seen) F) := rfl
      cases hn : (n == name) with
      | false =>
        have hne : ¬ n = name := by simpa using hn
        have hfn : featNums (⟨Origin.feature num, n⟩ :: F) name = featNums F name := by
          simp [featNums, List.filterMap_cons, hne]
        have hv : (versionFileName n == versionFileName name) = false := by
          rw [vfn_beq]; exact hn
        refine ⟨?_, ?_, ?_⟩
        · rw [hsim, hev, fileContent_cons, ihc, hfn]
          cases hln : lastNote printer (dep0 (allRequires reg) et name) name (featNums F name) with
          | some c => rfl
          | none => simp [hv]
        · rw [hsim]
          have hcnt : evWrCount name (Ev.wr n num (dep0 (allRequires reg) et n) ::
              simEvents reg et (n :: seen) F) =
              evWrCount name (simEvents reg et (n :: seen) F) := by
            simp [evWrCount, List.countP_cons, hn]
          rw [hcnt, ihw, hfn]
        · rw [hsim]
          have hcnt : evSkCount name (Ev.wr n num (dep0 (allRequires reg) et n) ::
              simEvents reg et (n :: seen) F) =
              evSkCount name (simEvents reg et (n :: seen) F) := by
            simp [evSkCount, List.countP_cons]
          rw [hcnt, ihs]
      | true =>
        have heq : n = name := by simpa using hn
        subst heq
        have hfn : featNums (⟨Origin.feature num, n⟩ :: F) n =
            num :: featNums F n := by
          simp [featNums, List.filterMap_cons]
        refine ⟨?_, ?_, ?_⟩
        · rw [hsim, hev, fileContent_cons, ihc, hfn]
          cases hln : featNums F n with
          | nil =>
            simp only [lastNote]
            simp [List.getLastD_cons]
          | cons w ws =>
            simp only [lastNote]
            simp [List.getLastD_cons]
        · rw [hsim]
          have hcnt : evWrCount n (Ev.wr n num (dep0 (allRequires reg) et n) ::
              simEvents reg et (n :: seen) F) =
              evWrCount n (simEvents reg et (n :: seen) F) + 1 := by
            simp [evWrCount, List.countP_cons]
          rw [hcnt, ihw, hfn]
          rfl
        · rw [hsim]
          have hcnt : evSkCount n (Ev.wr n num (dep0 (allRequires reg) et n) ::
              simEvents reg et (n :: seen) F) =
              evSkCount n (simEvents reg et (n :: seen) F) := by
            simp [evSkCount, List.countP_cons]
          rw [hcnt, ihs]

theorem extpart_events (reg : Registry) (et : String)
    (printer : String → String → Option String → String) (name : String) :
    ∀ (E : List Occ) (seen : List String), (∀ o ∈ E, isFeatOcc o = false) →
    (seen.contains name = true →
        fileContent (evWrites printer (simEvents reg et seen E)) (versionFileName name) = none ∧
        evWrCount name (simEvents reg et seen E) = 0 ∧
        evSkCount name (simEvents reg et seen E) = (extNames E name).length) ∧
    (seen.contains name = false →
        fileContent (evWrites printer (simEvents reg et seen E)) (versionFileName name) =
          headNote printer name (extNames E name) ∧
        evWrCount name (simEvents reg et seen E) = oneIf (extNames E name) ∧
        evSkCount name (simEvents reg et seen E) = (extNames E name).length - 1) := by
  intro E
  induction E with
  | nil =>
    intro seen h
    exact ⟨fun _ => ⟨rfl, rfl, rfl⟩, fun _ => ⟨rfl, rfl, rfl⟩⟩
  | cons o E ih =>
    intro seen h
    obtain ⟨orig, n⟩ := o
    cases orig with
    | feature num =>
      exact absurd (h _ (List.mem_cons_self _ _)) (by simp [isFeatOcc])
    | extensionName x =>
      have htail := fun sn => ih sn (fun o ho => h o (List.mem_cons_of_mem _ ho))
      cases hn : (n == name) with
      | true =>
        have heq : n = name := by simpa using hn
        subst heq
        have hxn : extNames (⟨Origin.extensionName x, n⟩ :: E) n = x :: extNames E n := by
          simp [extNames, List.filterMap_cons]
        constructor
        · -- name already seen: this occurrence is skipped
          intro hseen
          have hm : n ∈ seen := by simpa using hseen
          have hsim : simEvents reg et seen (⟨Origin.extensionName x, n⟩ :: E) =
              Ev.sk n :: simEvents reg et seen E := by
            simp [simEvents, hm]
          obtain ⟨hc1, hc2, hc3⟩ := (htail seen).1 hseen
          refine ⟨?_, ?_, ?_⟩
          · rw [hsim]
            have hev : evWrites printer (Ev.sk n :: simEvents reg et seen E) =
                evWrites printer (simEvents reg et seen E) := rfl
            rw [hev, hc1]
          · rw [hsim]
            have : evWrCount n (Ev.sk n :: simEvents reg et seen E) =
                evWrCount n (simEvents reg et seen E) := by
              simp [evWrCount, List.countP_cons]
            rw [this, hc2]
          · rw [hsim]
            have : evSkCount n (Ev.sk n :: simEvents reg et seen E) =
                evSkCount n (simEvents reg et seen E) + 1 := by
              simp [evSkCount, List.countP_cons]
            rw [this, hc3, hxn]
            rfl
        · -- name unseen: this occurrence writes, later ones are skipped
          intro hseen
          have hm : n ∉ seen := by simpa using hseen
          have hsim : simEvents reg et seen (⟨Origin.extensionName x, n⟩ :: E) =
              Ev.wr n x none :: simEvents reg et (n :: seen) E := by
            simp [simEvents, hm]
          have hseen2 : (n :: seen).contains n = true := by simp
          obtain ⟨hc1, hc2, hc3⟩ := (htail (n :: seen)).1 hseen2
          have hev : evWrites printer (Ev.wr n x none :: simEvents reg et (n :: seen) E) =
              (versionFileName n, mkFileContent printer n x none) ::
                evWrites printer (simEvents reg et (n :: seen) E) := rfl
          refine ⟨?_, ?_, ?_⟩
          · rw [hsim, hev, fileContent_cons, hc1, hxn]
            simp [headNote]
          · rw [hsim]
            have : evWrCount n (Ev.wr n x none :: simEvents reg et (n :: seen) E) =
                evWrCount n (simEvents reg et (n :: seen) E) + 1 := by
              simp [evWrCount, List.countP_cons]
            rw [this, hc2, hxn]
            rfl
          · rw [hsim]
            have : evSkCount n (Ev.wr n x none :: simEvents reg et (n :: seen) E) =
                evSkCount n (simEvents reg et (n :: seen) E) := by
              simp [evSkCount, List.countP_cons]
            rw [this, hc3, hxn]
            simp
      | false =>
        have hne : ¬ n = name := by simpa using hn
        have hxn : extNames (⟨Origin.extensionName x, n⟩ :: E) name = extNames E name := by
          simp [extNames, List.filterMap_cons, hne]
        have hv : (versionFileName n == versionFileName name) = false := by
          rw [vfn_beq]; exact hn
        by_cases hm : n ∈ seen
        · -- other name, already seen: skipped, nothing about `name` changes
          have hsim : simEvents reg et seen (⟨Origin.extensionName x, n⟩ :: E) =
              Ev.sk n :: simEvents reg et seen E := by
            simp [simEvents, hm]
          have hev : evWrites printer (Ev.sk n :: simEvents reg et seen E) =
              evWrites printer (simEvents reg et seen E) := rfl
          have hwc : evWrCount name (Ev.sk n :: simEvents reg et seen E) =
              evWrCount name (simEvents reg et seen E) := by
            simp [evWrCount, List.countP_cons]
          have hsc : evSkCount name (Ev.sk n :: simEvents reg et seen E) =
              evSkCount name (simEvents reg et seen E) := by
            simp [evSkCount, List.countP_cons, hn]
          constructor
          · intro hseen
            obtain ⟨hc1, hc2, hc3⟩ := (htail seen).1 hseen
            exact ⟨by rw [hsim, hev, hc1], by rw [hsim, hwc, hc2],
              by rw [hsim, hsc, hc3, hxn]⟩
          · intro hseen
            obtain ⟨hc1, hc2, hc3⟩ := (htail seen).2 hseen
            exact ⟨by rw [hsim, hev, hc1, hxn], by rw [hsim, hwc, hc2, hxn],
              by rw [hsim, hsc, hc3, hxn]⟩
        · -- other name, unseen: written, nothing about `name` changes
          have hsim : simEvents reg et seen (⟨Origin.extensionName x, n⟩ :: E) =
              Ev.wr n x none :: simEvents reg et (n :: seen) E := by
            simp [simEvents, hm]
          have hev : evWrites printer (Ev.wr n x none :: simEvents reg et (n :: seen) E) =
              (versionFileName n, mkFileContent printer n x none) ::
                evWrites printer (simEvents reg et (n :: seen) E) := rfl
          have hwc : evWrCount name (Ev.wr n x none :: simEvents reg et (n :: seen) E) =
              evWrCount name (simEvents reg et (n :: seen) E) := by
            simp [evWrCount, List.countP_cons, hn]
          have hsc : evSkCount name (Ev.wr n x none :: simEvents reg et (n :: seen) E) =
              evSkCount name (simEvents reg et (n :: seen) E) := by
            simp [evSkCount, List.countP_cons]
          have hpres : (n :: seen).contains name = seen.contains name := by
            rw [List.contains_cons]
            have h1 : (name == n) = false := by
              rw [beq_eq_false_iff_ne]; exact fun hh => hne hh.symm
            rw [h1]
            simp
          constructor
          · intro hseen
            obtain ⟨hc1, hc2, hc3⟩ := (htail (n :: seen)).1 (by rw [hpres]; exact hseen)
            refine ⟨?_, by rw [hsim, hwc, hc2], by rw [hsim, hsc, hc3, hxn]⟩
            rw [hsim, hev, fileContent_cons, hc1]
            simp [hv]
          · intro hseen
            obtain ⟨hc1, hc2, hc3⟩ := (htail (n :: seen)).2 (by rw [hpres]; exact hseen)
            refine ⟨?_, by rw [hsim, hwc, hc2, hxn], by rw [hsim, hsc, hc3, hxn]⟩
            rw [hsim, hev, fileContent_cons, hc1, hxn]
            cases hhn : headNote printer name (extNames E name) with
            | some cc => rfl
            | none => simp [hv]

theorem featOccsOf_eq (reg : Registry) (et name : String) :
    featOccsOf reg et name = featNums (featPart reg et) name := by
  unfold featOccsOf occsOf
  rw [featNums_append, featNums_of_extlist name _ (extPart_all_ext reg et), List.append_nil]

theorem extOccsOf_eq (reg : Registry) (et name : String) :
    extOccsOf reg et name = extNames (extPart reg et) name := by
  unfold extOccsOf occsOf
  rw [extNames_append, extNames_of_featlist name _ (featPart_all_feat reg et)]
  rfl

theorem any_iff_featNums (name : String) : ∀ (F : List Occ),
    (∀ o ∈ F, isFeatOcc o = true) →
    ((F.any (fun o => o.name == name)) = false ↔ featNums F name = []) := by
  intro F
  induction F with
  | nil => intro h; simp [featNums]
  | cons o F ih =>
    intro h
    obtain ⟨orig, n⟩ := o
    cases orig with
    | extensionName x =>
      exact absurd (h _ (List.mem_cons_self _ _)) (by simp [isFeatOcc])
    | feature num =>
      rw [List.any_cons]
      cases hn : (n == name) with
      | true =>
        have heq : n = name := by simpa using hn
        subst heq
        have hfn : featNums (⟨Origin.feature num, n⟩ :: F) n = num :: featNums F n := by
          simp [featNums, List.filterMap_cons]
        rw [hfn]
        simp
      | false =>
        have hne : ¬ n = name := by simpa using hn
        have hfn : featNums (⟨Origin.feature num, n⟩ :: F) name = featNums F name := by
          simp [featNums, List.filterMap_cons, hne]
        rw [hfn]
        simp only [Bool.false_or]
        exact ih (fun o ho => h o (List.mem_cons_of_mem _ ho))

theorem lastNote_ne_nil (printer : String → String → Option String → String)
    (dep : Option String) (name : String) (l : List String) (h : l ≠ []) :
    lastNote printer dep name l = some (mkFileContent printer name (l.getLastD "") dep) := by
  cases l with
  | nil => exact absurd rfl h
  | cons v vs => rfl

theorem warnCount_append (A B : List String) (name : String) :
    warnCount (A ++ B) name = warnCount A name + warnCount B name := by
  unfold warnCount
  rw [List.countP_append]

theorem writesToCount_append (A B : List (String × String)) (f : String) :
    writesToCount (A ++ B) f = writesToCount A f + writesToCount B f := by
  unfold writesToCount
  rw [List.filter_append, List.length_append]

/-- Master characterization of the per-name observable behaviour of one
successful `process_xml` run: a name reachable from at least one feature
gets its file written once per feature occurrence, with the content of the
last feature visited, and every extension occurrence is skipped with a
warning; a name reachable only from extensions gets its file written once
with the content of the first extension visited, each further extension
occurrence being skipped with a warning; an unreachable name gets no file
and no warning. -/
theorem content_char (reg : Registry) (et : String)
    (printer : String → String → Option String → String) (name : String)
    (st : ProcState) (sum : String)
    (h : processXml reg et printer = .ok (st, sum)) :
    (featOccsOf reg et name ≠ [] →
        fileContent st.writes (versionFileName name) =
          some (mkFileContent printer name ((featOccsOf reg et name).getLastD "")
            (dep0 (allRequires reg) et name)) ∧
        writesToCount st.writes (versionFileName name) = (featOccsOf reg et name).length ∧
        warnCount st.warnings name = (extOccsOf reg et name).length) ∧
    (featOccsOf reg et name = [] → extOccsOf reg et name ≠ [] →
        fileContent st.writes (versionFileName name) =
          some (mkFileContent printer name ((extOccsOf reg et name).headD "") none) ∧
        writesToCount st.writes (versionFileName name) = 1 ∧
        warnCount st.warnings name = (extOccsOf reg et name).length - 1) ∧
    (featOccsOf reg et name = [] → extOccsOf reg et name = [] →
        fileContent st.writes (versionFileName name) = none ∧
        writesToCount st.writes (versionFileName name) = 0 ∧
        warnCount st.warnings name = 0) := by
  obtain ⟨hst, hsum⟩ := processXml_ok_char reg et printer st sum h
  have hw : st.writes = evWrites printer (simEvents reg et [] (occsOf reg et)) := by
    rw [hst]; rfl
  have hg : st.warnings = evWarnings (simEvents reg et [] (occsOf reg et)) := by
    rw [hst]; rfl
  have hocc : occsOf reg et = featPart reg et ++ extPart reg et := rfl
  rw [hw, hg, hocc, simEvents_append]
  set ESf := simEvents reg et [] (featPart reg et) with hESf
  set seen1 := seenAfter [] (featPart reg et) with hseen1
  set ESe := simEvents reg et seen1 (extPart reg et) with hESe
  have hwr : evWrites printer (ESf ++ ESe) = evWrites printer ESf ++ evWrites printer ESe := by
    unfold evWrites
    rw [List.filterMap_append]
  have hwa : evWarnings (ESf ++ ESe) = evWarnings ESf ++ evWarnings ESe := by
    unfold evWarnings
    rw [List.flatMap_append]
  rw [hwr, hwa]
  obtain ⟨Fc, Fw, Fs⟩ := featpart_events reg et printer name (featPart reg et) []
    (featPart_all_feat reg et)
  have hWCf : warnCount (evWarnings ESf) name = 0 := by
    rw [warnCount_evWarnings]
    exact Fs
  have hTCf : writesToCount (evWrites printer ESf) (versionFileName name) =
      (featNums (featPart reg et) name).length := by
    rw [writesToCount_evWrites]
    exact Fw
  have hext := extpart_events reg et printer name (extPart reg et) seen1
    (extPart_all_ext reg et)
  have hcont : seen1.contains name = (featPart reg et).any (fun o => o.name == name) := by
    rw [hseen1, seenAfter_contains]
    rfl
  refine ⟨?_, ?_, ?_⟩
  · -- at least one feature occurrence
    intro hF
    rw [featOccsOf_eq] at hF
    have hany : (featPart reg et).any (fun o => o.name == name) = true := by
      cases hb : (featPart reg et).any (fun o => o.name == name) with
      | true => rfl
      | false =>
        exact absurd ((any_iff_featNums name _ (featPart_all_feat reg et)).mp hb) hF
    have hc1 : seen1.contains name = true := by rw [hcont]; exact hany
    obtain ⟨Ec, Ew, Es⟩ := hext.1 hc1
    refine ⟨?_, ?_, ?_⟩
    · rw [fileContent_append, Ec, Fc, featOccsOf_eq]
      exact lastNote_ne_nil printer _ name _ hF
    · rw [writesToCount_append, hTCf]
      rw [writesToCount_evWrites]
      rw [Ew, featOccsOf_eq]
      rfl
    · rw [warnCount_append, hWCf]
      rw [warnCount_evWarnings, Es, extOccsOf_eq]
      omega
  · -- only extension occurrences
    intro hF hE
    rw [featOccsOf_eq] at hF
    rw [extOccsOf_eq] at hE
    have hany : (featPart reg et).any (fun o => o.name == name) = false :=
      (any_iff_featNums name _ (featPart_all_feat reg et)).mpr hF
    have hc1 : seen1.contains name = false := by rw [hcont]; exact hany
    obtain ⟨Ec, Ew, Es⟩ := hext.2 hc1
    refine ⟨?_, ?_, ?_⟩
    · rw [fileContent_append, Ec, extOccsOf_eq]
      cases hl : extNames (extPart reg et) name with
      | nil => exact absurd hl hE
      | cons x xs => rfl
    · rw [writesToCount_append, hTCf, hF, writesToCount_evWrites, Ew]
      cases hl : extNames (extPart reg et) name with
      | nil => exact absurd hl hE
      | cons x xs => rfl
    · rw [warnCount_append, hWCf, warnCount_evWarnings, Es, extOccsOf_eq]
      omega
  · -- unreachable name
    intro hF hE
    rw [featOccsOf_eq] at hF
    rw [extOccsOf_eq] at hE
    have hany : (featPart reg et).any (fun o => o.name == name) = false :=
      (any_iff_featNums name _ (featPart_all_feat reg et)).mpr hF
    have hc1 : seen1.contains name = false := by rw [hcont]; exact hany
    obtain ⟨Ec, Ew, Es⟩ := hext.2 hc1
    refine ⟨?_, ?_, ?_⟩
    · rw [fileContent_append, Ec, hE]
      show fileContent (evWrites printer ESf) (versionFileName name) = none
      rw [Fc, hF]
      rfl
    · rw [writesToCount_append, hTCf, hF, writesToCount_evWrites, Ew, hE]
      rfl
    · rw [warnCount_append, hWCf, warnCount_evWarnings, Es, hE]
      rfl

theorem scanFold_error (e : AssertError) : ∀ cs : List String,
    cs.foldl scanStep (.error e) = .error e := by
  intro cs
  induction cs with
  | nil => rfl
  | cons c cs ih => rw [List.foldl_cons]; exact ih

theorem scanFold_noMarker : ∀ (cs : List String) (d : Option String),
    (∀ c ∈ cs, containsMarker c = false) → cs.foldl scanStep (.ok d) = .ok d := by
  intro cs
  induction cs with
  | nil => intro d h; rfl
  | cons c cs ih =>
    intro d h
    rw [List.foldl_cons]
    have hstep : scanStep (.ok d) c = .ok d := by
      simp [scanStep, h c (List.mem_cons_self _ _)]
    rw [hstep]
    exact ih d (fun c hc => h c (List.mem_cons_of_mem _ hc))

theorem scanFold_some_err : ∀ (cs : List String) (d : String),
    cs.countP containsMarker ≥ 1 →
    ∃ e, cs.foldl scanStep (.ok (some d)) = .error e := by
  intro cs
  induction cs with
  | nil => intro d h; simp [List.countP_nil] at h
  | cons c cs ih =>
    intro d h
    rw [List.foldl_cons]
    cases hm : containsMarker c with
    | true =>
      cases hsl : (sliceOf c == marker) with
      | true =>
        have hstep : scanStep (.ok (some d)) c = .error .doubleDeprecation := by
          simp [scanStep, hm, hsl]
        rw [hstep, scanFold_error]
        exact ⟨_, rfl⟩
      | false =>
        have hstep : scanStep (.ok (some d)) c = .error .markerFormat := by
          simp [scanStep, hm, hsl]
        rw [hstep, scanFold_error]
        exact ⟨_, rfl⟩
    | false =>
      have hstep : scanStep (.ok (some d)) c = .ok (some d) := by
        simp [scanStep, hm]
      rw [hstep]
      refine ih d ?_
      rw [List.countP_cons, hm] at h
      simpa using h

theorem scanFold_two_err : ∀ cs : List String,
    cs.countP containsMarker ≥ 2 →
    ∃ e, cs.foldl scanStep (.ok none) = .error e := by
  intro cs
  induction cs with
  | nil => intro h; simp [List.countP_nil] at h
  | cons c cs ih =>
    intro h
    rw [List.foldl_cons]
    cases hm : containsMarker c with
    | true =>
      cases hsl : (sliceOf c == marker) with
      | true =>
        have hstep : scanStep (.ok none) c = .ok (some (lastWordOf c)) := by
          simp [scanStep, hm, hsl]
        rw [hstep]
        refine scanFold_some_err cs (lastWordOf c) ?_
        rw [List.countP_cons, hm] at h
        have h2 : cs.countP containsMarker + 1 >= 2 := by simpa using h
        omega
      | false =>
        have hstep : scanStep (.ok none) c = .error .markerFormat := by
          simp [scanStep, hm, hsl]
        rw [hstep, scanFold_error]
        exact ⟨_, rfl⟩
    | false =>
      have hstep : scanStep (.ok none) c = .ok none := by
        simp [scanStep, hm]
      rw [hstep]
      refine ih ?_
      rw [List.countP_cons, hm] at h
      simpa using h

theorem scanFold_bad_err : ∀ (cs : List String) (d : Option String) (c : String),
    c ∈ cs → containsMarker c = true → (sliceOf c == marker) = false →
    ∃ e, cs.foldl scanStep (.ok d) = .error e := by
  intro cs
  induction cs with
  | nil => intro d c hc; exact absurd hc (List.not_mem_nil c)
  | cons c0 cs ih =>
    intro d c hc hm hsl
    rw [List.foldl_cons]
    rcases List.mem_cons.mp hc with heq | hmem
    · subst heq
      have hstep : scanStep (.ok d) c = .error .markerFormat := by
        simp [scanStep, hm, hsl]
      rw [hstep, scanFold_error]
      exact ⟨_, rfl⟩
    · cases hm0 : containsMarker c0 with
      | false =>
        have hstep : scanStep (.ok d) c0 = .ok d := by
          simp [scanStep, hm0]
        rw [hstep]
        exact ih d c hmem hm hsl
      | true =>
        cases hsl0 : (sliceOf c0 == marker) with
        | false =>
          have hstep : scanStep (.ok d) c0 = .error .markerFormat := by
            simp [scanStep, hm0, hsl0]
          rw [hstep, scanFold_error]
          exact ⟨_, rfl⟩
        | true =>
          cases d with
          | some dd =>
            have hstep : scanStep (.ok (some dd)) c0 = .error .doubleDeprecation := by
              simp [scanStep, hm0, hsl0]
            rw [hstep, scanFold_error]
            exact ⟨_, rfl⟩
          | none =>
            have hstep : scanStep (.ok none) c0 = .ok (some (lastWordOf c0)) := by
              simp [scanStep, hm0, hsl0]
            rw [hstep]
            exact ih _ c hmem hm hsl

theorem scanFold_unique : ∀ (cs : List String) (c : String),
    cs.filter containsMarker = [c] → (sliceOf c == marker) = true →
    cs.foldl scanStep (.ok none) = .ok (some (lastWordOf c)) := by
  intro cs
  induction cs with
  | nil => intro c hc; exact absurd hc (by simp)
  | cons c0 cs ih =>
    intro c hc hsl
    rw [List.foldl_cons]
    rw [List.filter_cons] at hc
    cases hm0 : containsMarker c0 with
    | false =>
      rw [hm0] at hc
      simp only [Bool.false_eq_true, if_false] at hc
      have hstep : scanStep (.ok none) c0 = .ok none := by
        simp [scanStep, hm0]
      rw [hstep]
      exact ih c hc hsl
    | true =>
      rw [hm0] at hc
      simp only [if_true] at hc
      have hc0 : c0 = c ∧ cs.filter containsMarker = [] := by
        constructor
        · exact (List.cons_eq_cons.mp hc).1
        · exact (List.cons_eq_cons.mp hc).2
      obtain ⟨rfl, hnil⟩ := hc0
      have hstep : scanStep (.ok none) c0 = .ok (some (lastWordOf c0)) := by
        simp [scanStep, hm0, hsl]
      rw [hstep]
      refine scanFold_noMarker cs (some (lastWordOf c0)) ?_
      intro cc hcc
      have := List.filter_eq_nil_iff.mp hnil cc hcc
      simpa using this

/-- If the deprecation scan of a name fails its assertions, the fold over a
feature-occurrence block containing that name aborts, and the abort state
holds no write for that name's file (the name's first occurrence aborts
before its write; earlier occurrences have other names). -/
theorem runOccs_featpart_err (reg : Registry) (et : String)
    (printer : String → String → Option String → String) (name : String)
    (hscan : ∃ e, scanDeprecation (allRequires reg) et name = .error e) :
    ∀ (F : List Occ), (∀ o ∈ F, isFeatOcc o = true) →
      (F.any (fun o => o.name == name) = true) →
    ∀ st : ProcState, ∃ p : AssertError × ProcState,
      runOccs reg et printer st F = .error p ∧
      writesToCount p.2.writes (versionFileName name) =
        writesToCount st.writes (versionFileName name) := by
  intro F
  induction F with
  | nil => intro hall hany st; simp at hany
  | cons o F ih =>
    intro hall hany st
    obtain ⟨orig, n0⟩ := o
    cases orig with
    | extensionName x =>
      exact absurd (hall _ (List.mem_cons_self _ _)) (by simp [isFeatOcc])
    | feature num =>
      rw [runOccs_cons]
      cases hn : (n0 == name) with
      | true =>
        have heq : n0 = name := by simpa using hn
        subst heq
        obtain ⟨e, he⟩ := hscan
        have hstep : stepOcc reg et printer st ⟨Origin.feature num, n0⟩ =
            .error (e, { st with numberOfEntries := st.numberOfEntries + 1 }) := by
          show (match scanDeprecation (allRequires reg) et n0 with
            | .error a => Except.error (a, { st with numberOfEntries := st.numberOfEntries + 1 })
            | .ok d => Except.ok (writeEntry printer
                { st with numberOfEntries := st.numberOfEntries + 1 } n0 num d)) = _
          rw [he]
        rw [hstep]
        exact ⟨(e, { st with numberOfEntries := st.numberOfEntries + 1 }), rfl, rfl⟩
      | false =>
        have hany2 : F.any (fun o => o.name == name) = true := by
          rw [List.any_cons] at hany
          simpa [hn] using hany
        cases hscan0 : scanDeprecation (allRequires reg) et n0 with
        | error a =>
          have hstep : stepOcc reg et printer st ⟨Origin.feature num, n0⟩ =
              .error (a, { st with numberOfEntries := st.numberOfEntries + 1 }) := by
            show (match scanDeprecation (allRequires reg) et n0 with
              | .error a => Except.error (a, { st with numberOfEntries := st.numberOfEntries + 1 })
              | .ok d => Except.ok (writeEntry printer
                  { st with numberOfEntries := st.numberOfEntries + 1 } n0 num d)) = _
            rw [hscan0]
          rw [hstep]
          exact ⟨(a, { st with numberOfEntries := st.numberOfEntries + 1 }), rfl, rfl⟩
        | ok d =>
          have hstep : stepOcc reg et printer st ⟨Origin.feature num, n0⟩ =
              .ok (writeEntry printer { st with numberOfEntries := st.numberOfEntries + 1 }
                n0 num d) := by
            show (match scanDeprecation (allRequires reg) et n0 with
              | .error a => Except.error (a, { st with numberOfEntries := st.numberOfEntries + 1 })
              | .ok d => Except.ok (writeEntry printer
                  { st with numberOfEntries := st.numberOfEntries + 1 } n0 num d)) = _
            rw [hscan0]
          rw [hstep]
          obtain ⟨p, herr, hcnt⟩ := ih
            (fun o ho => hall o (List.mem_cons_of_mem _ ho)) hany2
            (writeEntry printer { st with numberOfEntries := st.numberOfEntries + 1 } n0 num d)
          refine ⟨p, herr, ?_⟩
          rw [hcnt]
          have hv : ((versionFileName n0, mkFileContent printer n0 num d).fst ==
              versionFileName name) = false := by
            show (versionFileName n0 == versionFileName name) = false
            rw [vfn_beq]; exact hn
          show writesToCount (st.writes ++ [(versionFileName n0, mkFileContent printer n0 num d)])
              (versionFileName name) = writesToCount st.writes (versionFileName name)
          rw [writesToCount_append]
          have : writesToCount [(versionFileName n0, mkFileContent printer n0 num d)]
              (versionFileName name) = 0 := by
            unfold writesToCount
            rw [List.filter_cons]
            rw [hv]
            rfl
          rw [this]
          omega

/-- When a name is feature-introduced and its deprecation scan fails an
assertion, the whole `process_xml` run aborts, with no file written for
that name. -/
theorem processXml_aborts (reg : Registry) (et : String)
    (printer : String → String → Option String → String) (name : String)
    (hscan : ∃ e, scanDeprecation (allRequires reg) et name = .error e)
    (hF : featOccsOf reg et name ≠ []) :
    ∃ p : AssertError × ProcState, processXml reg et printer = .error p ∧
      writesToCount p.2.writes (versionFileName name) = 0 := by
  rw [featOccsOf_eq] at hF
  have hany : (featPart reg et).any (fun o => o.name == name) = true := by
    cases hb : (featPart reg et).any (fun o => o.name == name) with
    | true => rfl
    | false =>
      exact absurd ((any_iff_featNums name _ (featPart_all_feat reg et)).mp hb) hF
  obtain ⟨p, herr, hcnt⟩ := runOccs_featpart_err reg et printer name hscan
    (featPart reg et) (featPart_all_feat reg et) hany initState
  have hrun : runOccs reg et printer initState (occsOf reg et) = .error p := by
    rw [occsOf, runOccs_append, herr]
    rfl
  exact ⟨p, processXml_err_char reg et printer p hrun, hcnt⟩

theorem isOkb_exists {ε α : Type} {r : Except ε α} (h : isOkb r = true) :
    ∃ a, r = .ok a := by
  cases r with
  | ok a => exact ⟨a, rfl⟩
  | error e => simp [isOkb] at h

theorem runMain_ok (reg : Registry) (r1 r2 : ProcState × String)
    (h : runMain reg = .ok (r1, r2)) :
    processXml reg "command" FullNote = .ok r1 ∧ processXml reg "enum" ShortNote = .ok r2 := by
  unfold runMain at h
  cases h1 : processXml reg "command" FullNote with
  | error p => rw [h1] at h; exact Except.noConfusion h
  | ok p1 =>
    rw [h1] at h
    have h2 : (processXml reg "enum" ShortNote) >>= (fun p2 => pure (p1, p2)) =
        .ok (r1, r2) := h
    cases h3 : processXml reg "enum" ShortNote with
    | error p => rw [h3] at h2; exact Except.noConfusion h2
    | ok p2 =>
      rw [h3] at h2
      have h4 : (Except.ok (p1, p2) :
          Except (AssertError × ProcState) ((ProcState × String) × (ProcState × String))) =
          .ok (r1, r2) := h2
      have h5 : (p1, p2) = (r1, r2) := by injection h4
      have e1 : p1 = r1 := congrArg Prod.fst h5
      have e2 : p2 = r2 := congrArg Prod.snd h5
      exact ⟨by rw [e1], by rw [e2]⟩

/-! ### Claim theorems -/

set_option maxRecDepth 8000

/-- C1 counterexample: in registry `RC1` the command `f` is reachable from
two feature containers ("1.0" first, "2.0" second).  The run writes its
file twice (not once), emits no warning, and the final content is the note
of the second (last) container, not the first — refuting the claim that
the first container wins and every subsequent occurrence is skipped with a
warning. -/
theorem C1_counterexample :
    fcOf (processXml RC1 "command" FullNote) (versionFileName "f") =
      some (mkFileContent FullNote "f" "2.0" none) ∧
    mkFileContent FullNote "f" "2.0" none ≠ mkFileContent FullNote "f" "1.0" none ∧
    warnsOf (processXml RC1 "command" FullNote) = [] ∧
    writesToCount (writesOf (processXml RC1 "command" FullNote)) (versionFileName "f") = 2 := by
  refine ⟨by decide, by decide, by decide, by decide⟩

/-- C1 (amended): in a run over a fixed registry and entry type, for every
symbol name: if the name is reachable from at least one feature container,
its single output file is written once per feature occurrence (subsequent
feature occurrences overwrite without warning), the final content is the
note of the last feature container visited, and every extension occurrence
of the name is skipped with a warning and no write; if the name is
reachable only from extension containers, exactly one write happens, the
content is the note of the first extension container visited, and each
subsequent extension occurrence is skipped with a warning. -/
theorem C1_amended (reg : Registry) (et : String)
    (printer : String → String → Option String → String) (name : String)
    (hok : isOkb (processXml reg et printer) = true) :
    (featOccsOf reg et name ≠ [] →
      fcOf (processXml reg et printer) (versionFileName name) =
        some (mkFileContent printer name ((featOccsOf reg et name).getLastD "")
          (dep0 (allRequires reg) et name)) ∧
      writesToCount (writesOf (processXml reg et printer)) (versionFileName name) =
        (featOccsOf reg et name).length ∧
      warnCount (warnsOf (processXml reg et printer)) name =
        (extOccsOf reg et name).length) ∧
    (featOccsOf reg et name = [] → extOccsOf reg et name ≠ [] →
      fcOf (processXml reg et printer) (versionFileName name) =
        some (mkFileContent printer name ((extOccsOf reg et name).headD "") none) ∧
      writesToCount (writesOf (processXml reg et printer)) (versionFileName name) = 1 ∧
      warnCount (warnsOf (processXml reg et printer)) name =
        (extOccsOf reg et name).length - 1) := by
  obtain ⟨⟨st, sum⟩, hr⟩ := isOkb_exists hok
  have hc := content_char reg et printer name st sum hr
  rw [hr]
  exact ⟨hc.1, hc.2.1⟩

/-- C1 witness: in registry `RC1w` the name `f` has feature occurrences
`["1.0", "2.0"]` and one extension occurrence; the file holds the "2.0"
note, was written twice, and one warning was emitted. -/
theorem C1_witness :
    isOkb (processXml RC1w "command" FullNote) = true ∧
    featOccsOf RC1w "command" "f" ≠ [] ∧
    (fcOf (processXml RC1w "command" FullNote) (versionFileName "f") =
      some (mkFileContent FullNote "f" ((featOccsOf RC1w "command" "f").getLastD "")
        (dep0 (allRequires RC1w) "command" "f")) ∧
    writesToCount (writesOf (processXml RC1w "command" FullNote)) (versionFileName "f") =
      (featOccsOf RC1w "command" "f").length ∧
    warnCount (warnsOf (processXml RC1w "command" FullNote)) "f" =
      (extOccsOf RC1w "command" "f").length) :=
  ⟨by decide, by decide, (C1_amended RC1w "command" FullNote "f" (by decide)).1 (by decide)⟩

/-- C2: when exactly one require group anywhere in the registry both
contains a same-named, same-tag child entry and carries a comment with the
marker phrase, and that comment matches "... deprecated in OpenCL X.Y"
(the marker phrase occupies the fourth- through second-from-last
space-delimited words), the deprecation scan succeeds and `deprecated_by`
is the comment's trailing space-delimited token. -/
theorem C2_trailing_token (reg : Registry) (et name c : String)
    (hfilter : (matchingComments (allRequires reg) et name).filter containsMarker = [c])
    (hslice : sliceOf c = marker) :
    scanDeprecation (allRequires reg) et name = .ok (some (lastWordOf c)) ∧
    dep0 (allRequires reg) et name = some (lastWordOf c) := by
  have hb : (sliceOf c == marker) = true := by rw [beq_iff_eq]; exact hslice
  have h1 : scanDeprecation (allRequires reg) et name = .ok (some (lastWordOf c)) := by
    unfold scanDeprecation
    exact scanFold_unique _ c hfilter hb
  refine ⟨h1, ?_⟩
  unfold dep0
  rw [h1]

/-- C2 witness: in `RC2` the comment "was deprecated in OpenCL 2.0"
deprecates `clFoo`, and the extracted version is the trailing token "2.0". -/
theorem C2_witness :
    (matchingComments (allRequires RC2) "command" "clFoo").filter containsMarker =
      ["was deprecated in OpenCL 2.0"] ∧
    sliceOf "was deprecated in OpenCL 2.0" = marker ∧
    dep0 (allRequires RC2) "command" "clFoo" = some "2.0" := by
  refine ⟨by decide, by decide, ?_⟩
  have h := C2_trailing_token RC2 "command" "clFoo" "was deprecated in OpenCL 2.0"
    (by decide) (by decide)
  have hl : lastWordOf "was deprecated in OpenCL 2.0" = "2.0" := by decide
  rw [← hl]
  exact h.2

/-- C3 counterexample: in `RC3` two distinct require-group comments claim
deprecation of the enum `CL_FOO`, yet the run does not abort — it
completes and even writes `CL_FOO`'s note — because `CL_FOO` is reachable
only from an extension container and the deprecation scan (with its
assertions) runs only for feature entries. -/
theorem C3_counterexample :
    (matchingComments (allRequires RC3) "enum" "CL_FOO").countP containsMarker = 2 ∧
    isOkb (processXml RC3 "enum" ShortNote) = true ∧
    fcOf (processXml RC3 "enum" ShortNote) (versionFileName "CL_FOO") =
      some (mkFileContent ShortNote "CL_FOO" "cl_ext" none) := by
  refine ⟨by decide, by decide, by decide⟩

/-- C3 (amended): for every symbol reachable from at least one feature
container, if two distinct require-group comments each claim deprecation
of that symbol (each contains the marker phrase and a same-named,
same-tag child entry), the run aborts with an assertion failure and no
file was written for that symbol; deprecation is never assigned twice. -/
theorem C3_amended (reg : Registry) (et : String)
    (printer : String → String → Option String → String) (name : String)
    (hF : featOccsOf reg et name ≠ [])
    (h2 : (matchingComments (allRequires reg) et name).countP containsMarker ≥ 2) :
    isErrb (processXml reg et printer) = true ∧
    (errStWrites (processXml reg et printer)).all
      (fun w => !(w.fst == versionFileName name)) = true := by
  have hscan : ∃ e, scanDeprecation (allRequires reg) et name = .error e := by
    unfold scanDeprecation
    exact scanFold_two_err _ h2
  obtain ⟨p, herr, hcnt⟩ := processXml_aborts reg et printer name hscan hF
  rw [herr]
  refine ⟨rfl, ?_⟩
  show p.2.writes.all (fun w => !(w.fst == versionFileName name)) = true
  unfold writesToCount at hcnt
  rw [List.length_eq_zero] at hcnt
  rw [List.all_eq_true]
  intro w hw
  have hnp := List.filter_eq_nil_iff.mp hcnt w hw
  cases hb : (w.fst == versionFileName name) with
  | true => exact absurd hb hnp
  | false => rfl

/-- C3 witness: in `RC3w` the enum `CL_X` is feature-introduced and two
require-group comments claim its deprecation; the run aborts with no file
written for `CL_X`. -/
theorem C3_witness :
    featOccsOf RC3w "enum" "CL_X" ≠ [] ∧
    (matchingComments (allRequires RC3w) "enum" "CL_X").countP containsMarker ≥ 2 ∧
    (isErrb (processXml RC3w "enum" ShortNote) = true ∧
     (errStWrites (processXml RC3w "enum" ShortNote)).all
       (fun w => !(w.fst == versionFileName "CL_X")) = true) :=
  ⟨by decide, by decide, C3_amended RC3w "enum" ShortNote "CL_X" (by decide) (by decide)⟩

/-- C4 counterexample: in `RC4` the command `f` is owned by an extension
container whose `name` attribute is "2.0" (no `cl_` prefix).  The note
dispatches on the prefix, not on the container category, so it renders the
"missing before version 2.0" sentence and never states that `f` requires
the extension — refuting the claim for extensions without the prefix. -/
theorem C4_counterexample :
    featOccsOf RC4 "command" "f" = [] ∧
    extOccsOf RC4 "command" "f" = ["2.0"] ∧
    fcOf (processXml RC4 "command" FullNote) (versionFileName "f") =
      some (GetHeader ++
        "\nIMPORTANT: \x7bf\x7d is <<unified-spec, missing before>> version 2.0." ++
        GetFooter) ∧
    hasSubstr (GetHeader ++
        "\nIMPORTANT: \x7bf\x7d is <<unified-spec, missing before>> version 2.0." ++
        GetFooter).data ("requires").data = false := by
  refine ⟨by decide, by decide, by decide, by decide⟩

/-- C4 (amended): for every symbol owned only by extension containers, if
the first such extension's `name` attribute starts with "cl_", the
rendered note states that the symbol requires that extension's literal
name, and it carries no deprecation clause regardless of any require-group
comment text elsewhere in the registry (the note is always rendered with
an empty `deprecated_by`). -/
theorem C4_amended (reg : Registry) (et : String)
    (printer : String → String → Option String → String) (name : String)
    (hok : isOkb (processXml reg et printer) = true)
    (hF : featOccsOf reg et name = [])
    (hE : extOccsOf reg et name ≠ [])
    (hcl : take3 ((extOccsOf reg et name).headD "") = "cl_") :
    fcOf (processXml reg et printer) (versionFileName name) =
      some (mkFileContent printer name ((extOccsOf reg et name).headD "") none) ∧
    FullNote name ((extOccsOf reg et name).headD "") none =
      "\nIMPORTANT: " ++ name ++ " requires " ++ ((extOccsOf reg et name).headD "") ++ "." ∧
    ShortNote name ((extOccsOf reg et name).headD "") none =
      name ++ " requires " ++ ((extOccsOf reg et name).headD "") ++ "." := by
  obtain ⟨⟨st, sum⟩, hr⟩ := isOkb_exists hok
  have hc := (content_char reg et printer name st sum hr).2.1 hF hE
  rw [hr]
  cases hE2 : extOccsOf reg et name with
  | nil => exact absurd hE2 hE
  | cons x xs =>
    rw [hE2] at hc hcl
    have hx : ((x :: xs).headD "") = x := rfl
    rw [hx] at hcl
    have h10 : ¬ x = "1.0" := by
      intro hh
      rw [hh] at hcl
      exact absurd hcl (by decide)
    refine ⟨?_, ?_, ?_⟩
    · exact hc.1
    · show FullNote name x none = "\nIMPORTANT: " ++ name ++ " requires " ++ x ++ "."
      simp [FullNote, h10, hcl]
    · show ShortNote name x none = name ++ " requires " ++ x ++ "."
      simp [ShortNote, h10, hcl]

/-- C4 witness: in `RC4w` the command `f` is owned by the extension
`cl_khr_fp64` (whose require group even carries a deprecation-marker
comment), and its note is exactly the "requires cl_khr_fp64" sentence
with no deprecation clause. -/
theorem C4_witness :
    isOkb (processXml RC4w "command" FullNote) = true ∧
    featOccsOf RC4w "command" "f" = [] ∧
    extOccsOf RC4w "command" "f" ≠ [] ∧
    take3 ((extOccsOf RC4w "command" "f").headD "") = "cl_" ∧
    (fcOf (processXml RC4w "command" FullNote) (versionFileName "f") =
      some (mkFileContent FullNote "f" ((extOccsOf RC4w "command" "f").headD "") none) ∧
    FullNote "f" ((extOccsOf RC4w "command" "f").headD "") none =
      "\nIMPORTANT: " ++ "f" ++ " requires " ++ ((extOccsOf RC4w "command" "f").headD "") ++ "." ∧
    ShortNote "f" ((extOccsOf RC4w "command" "f").headD "") none =
      "f" ++ " requires " ++ ((extOccsOf RC4w "command" "f").headD "") ++ ".") :=
  ⟨by decide, by decide, by decide, by decide,
   C4_amended RC4w "command" FullNote "f" (by decide) (by decide) (by decide) (by decide)⟩

/-- C5: for every symbol whose owning (last-visited) feature container has
version token V with V ≠ "1.0" and V not starting with the extension-name
prefix "cl_", and whose deprecation scan finds nothing, the written file
holds the note rendered for (name, V, no deprecation), and both note
renderers state "missing before version V" with V verbatim. -/
theorem C5_missing_before (reg : Registry) (et : String)
    (printer : String → String → Option String → String) (name V : String)
    (hok : isOkb (processXml reg et printer) = true)
    (hF : featOccsOf reg et name ≠ [])
    (hV : (featOccsOf reg et name).getLastD "" = V)
    (hdep : dep0 (allRequires reg) et name = none)
    (h10 : V ≠ "1.0")
    (hcl : take3 V ≠ "cl_") :
    fcOf (processXml reg et printer) (versionFileName name) =
      some (GetHeader ++ printer name V none ++ GetFooter) ∧
    FullNote name V none =
      "\nIMPORTANT: \x7b" ++ name ++
        "\x7d is <<unified-spec, missing before>> version " ++ V ++ "." ∧
    ShortNote name V none = "<<unified-spec, Missing before>> version " ++ V ++ "." := by
  obtain ⟨⟨st, sum⟩, hr⟩ := isOkb_exists hok
  have hc := (content_char reg et printer name st sum hr).1 hF
  refine ⟨?_, ?_, ?_⟩
  · rw [hr]
    show fileContent st.writes (versionFileName name) = _
    rw [hc.1, hV, hdep]
    rfl
  · simp [FullNote, h10, hcl]
  · simp [ShortNote, h10, hcl]

/-- C5 witness: `clEnqueueSVMMigrateMem`, introduced in feature version
"2.1" with no deprecation comment, is classified as missing before
version "2.1". -/
theorem C5_witness :
    isOkb (processXml RC5 "command" FullNote) = true ∧
    featOccsOf RC5 "command" "clEnqueueSVMMigrateMem" ≠ [] ∧
    (featOccsOf RC5 "command" "clEnqueueSVMMigrateMem").getLastD "" = "2.1" ∧
    dep0 (allRequires RC5) "command" "clEnqueueSVMMigrateMem" = none ∧
    (fcOf (processXml RC5 "command" FullNote) (versionFileName "clEnqueueSVMMigrateMem") =
      some (GetHeader ++ FullNote "clEnqueueSVMMigrateMem" "2.1" none ++ GetFooter) ∧
    FullNote "clEnqueueSVMMigrateMem" "2.1" none =
      "\nIMPORTANT: \x7bclEnqueueSVMMigrateMem\x7d is <<unified-spec, missing before>> version 2.1." ∧
    ShortNote "clEnqueueSVMMigrateMem" "2.1" none =
      "<<unified-spec, Missing before>> version 2.1.") := by
  refine ⟨by decide, by decide, by decide, by decide, ?_⟩
  have h := C5_missing_before RC5 "command" FullNote "clEnqueueSVMMigrateMem" "2.1"
    (by decide) (by decide) (by decide) (by decide) (by decide) (by decide)
  refine ⟨h.1, ?_, h.2.2⟩
  have h2 := h.2.1
  rw [h2]
  apply String.ext
  simp [String.data_append]

/-- C6: for every symbol name, with `added_in = "1.0"` and no deprecation
the full note is exactly the standalone "always been present" remark, the
short note is the identical remark without the leading line break, and the
two variants differ only by that formatting. -/
theorem C6_always_present (name : String) :
    FullNote name "1.0" none =
      "\n// Intentionally empty, " ++ name ++ " has always been present." ∧
    ShortNote name "1.0" none =
      "// Intentionally empty, " ++ name ++ " has always been present." ∧
    FullNote name "1.0" none = "\n" ++ ShortNote name "1.0" none := by
  refine ⟨rfl, rfl, ?_⟩
  apply String.ext
  simp [FullNote, ShortNote, String.data_append]

/-- C7 counterexample: the short-form note for an enum introduced in "1.0"
and deprecated by "3.0" is not the bare sentence "Deprecated by version
3.0." — the "Deprecated by" words are wrapped in a `<<unified-spec, ...>>`
cross-reference in the written file. -/
theorem C7_counterexample :
    ShortNote "CL_FOO" "1.0" (some "3.0") =
      "<<unified-spec, Deprecated by>> version 3.0." ∧
    ShortNote "CL_FOO" "1.0" (some "3.0") ≠ "Deprecated by version 3.0." := by
  refine ⟨by decide, by decide⟩

/-- C7 (amended): for an enum symbol introduced in "1.0" and deprecated
via a require-group comment matching "... deprecated in OpenCL 3.0", the
short-form note is "<<unified-spec, Deprecated by>> version 3.0." — the
deprecation sentence with its "Deprecated by" phrase wrapped in a
unified-spec cross-reference; it still omits the IMPORTANT admonition
keyword and the braces around the symbol name. -/
theorem C7_short_deprecated (reg : Registry) (name c : String)
    (hfilter : (matchingComments (allRequires reg) "enum" name).filter containsMarker = [c])
    (hslice : sliceOf c = marker)
    (hlast : lastWordOf c = "3.0") :
    ShortNote name "1.0" (dep0 (allRequires reg) "enum" name) =
      "<<unified-spec, Deprecated by>> version 3.0." ∧
    hasSubstr ("<<unified-spec, Deprecated by>> version 3.0.").data ("IMPORTANT").data = false ∧
    hasSubstr ("<<unified-spec, Deprecated by>> version 3.0.").data ['\x7b'] = false := by
  have hb : (sliceOf c == marker) = true := by rw [beq_iff_eq]; exact hslice
  have hdep : dep0 (allRequires reg) "enum" name = some "3.0" := by
    unfold dep0 scanDeprecation
    rw [scanFold_unique _ c hfilter hb, hlast]
  rw [hdep]
  refine ⟨rfl, by decide, by decide⟩

/-- C7 witness: in `RC7` the enum `CL_FOO` sits in feature "1.0" and a
require-group comment ends "deprecated in OpenCL 3.0"; its short note is
the cross-referenced deprecation sentence. -/
theorem C7_witness :
    (matchingComments (allRequires RC7) "enum" "CL_FOO").filter containsMarker =
      ["x deprecated in OpenCL 3.0"] ∧
    sliceOf "x deprecated in OpenCL 3.0" = marker ∧
    lastWordOf "x deprecated in OpenCL 3.0" = "3.0" ∧
    (ShortNote "CL_FOO" "1.0" (dep0 (allRequires RC7) "enum" "CL_FOO") =
      "<<unified-spec, Deprecated by>> version 3.0." ∧
    hasSubstr ("<<unified-spec, Deprecated by>> version 3.0.").data ("IMPORTANT").data = false ∧
    hasSubstr ("<<unified-spec, Deprecated by>> version 3.0.").data ['\x7b'] = false) :=
  ⟨by decide, by decide, by decide,
   C7_short_deprecated RC7 "CL_FOO" "x deprecated in OpenCL 3.0"
     (by decide) (by decide) (by decide)⟩

/-- C8 counterexample: over `RC8` (the command `f` reachable from the two
features "2.0" and "3.0") the run prints "Found 2 API commands, 2 newer
than 1.0, 0 are deprecated." — the line ends "K are deprecated." (not
"K deprecated"), and M counts note-writing occurrences (2), not distinct
processed symbols (1), so the claim's line "Found 2 API commands, 1 newer
than 1.0, 0 deprecated" is not what is printed. -/
theorem C8_counterexample :
    summaryOf (processXml RC8 "command" FullNote) =
      some "Found 2 API commands, 2 newer than 1.0, 0 are deprecated." ∧
    ("Found 2 API commands, 2 newer than 1.0, 0 are deprecated." ≠
      "Found 2 API commands, 1 newer than 1.0, 0 deprecated") := by
  refine ⟨by decide, by decide⟩

/-- C8 (amended): after processing all containers for one entry type, the
run prints exactly one summary line, "Found N API <kind>s, M newer than
1.0, K are deprecated.", where N is the total number of symbol occurrences
visited (including skipped duplicates), M is the number of note-writing
occurrences whose `added_in` is not "1.0", and K is the number of
note-writing occurrences with a non-empty `deprecated_by`. -/
theorem C8_summary_line (reg : Registry) (et : String)
    (printer : String → String → Option String → String)
    (hok : isOkb (processXml reg et printer) = true) :
    summaryOf (processXml reg et printer) =
      some ("Found " ++ toString ((occsOf reg et).length) ++ " API " ++ et ++ "s, " ++
        toString (evNew (simEvents reg et [] (occsOf reg et))) ++ " newer than 1.0, " ++
        toString (evDep (simEvents reg et [] (occsOf reg et))) ++ " are deprecated.") := by
  obtain ⟨⟨st, sum⟩, hr⟩ := isOkb_exists hok
  obtain ⟨hst, hsum⟩ := processXml_ok_char reg et printer st sum hr
  rw [hr]
  show some sum = _
  rw [hsum, hst]
  unfold summaryLine mkFinal initState
  simp

/-- C8 witness: over `RC8` the summary line is "Found 2 API commands, 2
newer than 1.0, 0 are deprecated.". -/
theorem C8_witness :
    isOkb (processXml RC8 "command" FullNote) = true ∧
    summaryOf (processXml RC8 "command" FullNote) =
      some ("Found " ++ toString ((occsOf RC8 "command").length) ++ " API " ++ "command" ++ "s, " ++
        toString (evNew (simEvents RC8 "command" [] (occsOf RC8 "command"))) ++ " newer than 1.0, " ++
        toString (evDep (simEvents RC8 "command" [] (occsOf RC8 "command"))) ++ " are deprecated.") :=
  ⟨by decide, C8_summary_line RC8 "command" FullNote (by decide)⟩

/-- C9: for a name occurring in the registry both as a command and as an
enum (feature-introduced in both kinds, in no extension), the whole run
first writes the name's file with the full-form (command) note and then
the second pass unconditionally overwrites the same file with the
short-form (enum) note, emitting no warning about the name: the
`seen_apis` set is created anew inside each per-kind invocation, so it
never spans the two kind passes. -/
theorem C9_cross_kind_overwrite (reg : Registry) (name : String)
    (hok : isOkb (runMain reg) = true)
    (hFc : featOccsOf reg "command" name ≠ [])
    (hFe : featOccsOf reg "enum" name ≠ [])
    (hEc : extOccsOf reg "command" name = [])
    (hEe : extOccsOf reg "enum" name = []) :
    midFileOf (runMain reg) (versionFileName name) =
      some (mkFileContent FullNote name ((featOccsOf reg "command" name).getLastD "")
        (dep0 (allRequires reg) "command" name)) ∧
    finalFileOf (runMain reg) (versionFileName name) =
      some (mkFileContent ShortNote name ((featOccsOf reg "enum" name).getLastD "")
        (dep0 (allRequires reg) "enum" name)) ∧
    warnCount (warnsAllOf (runMain reg)) name = 0 := by
  obtain ⟨⟨p1, p2⟩, hr⟩ := isOkb_exists hok
  obtain ⟨h1, h2⟩ := runMain_ok reg p1 p2 hr
  obtain ⟨st1, sum1⟩ := p1
  obtain ⟨st2, sum2⟩ := p2
  have hc1 := (content_char reg "command" FullNote name st1 sum1 h1).1 hFc
  have hc2 := (content_char reg "enum" ShortNote name st2 sum2 h2).1 hFe
  rw [hr]
  refine ⟨?_, ?_, ?_⟩
  · show fileContent st1.writes (versionFileName name) = _
    exact hc1.1
  · show fileContent (st1.writes ++ st2.writes) (versionFileName name) = _
    rw [fileContent_append, hc2.1]
  · show warnCount (st1.warnings ++ st2.warnings) name = 0
    rw [warnCount_append, hc1.2.2, hc2.2.2, hEc, hEe]
    rfl

/-- C9 witness: in `RC9` the name `X` occurs both as a command and as an
enum of feature "2.0"; after the first pass its file holds the full-form
note, after the whole run the short-form note, with no warning. -/
theorem C9_witness :
    isOkb (runMain RC9) = true ∧
    featOccsOf RC9 "command" "X" ≠ [] ∧
    featOccsOf RC9 "enum" "X" ≠ [] ∧
    (midFileOf (runMain RC9) (versionFileName "X") =
      some (mkFileContent FullNote "X" ((featOccsOf RC9 "command" "X").getLastD "")
        (dep0 (allRequires RC9) "command" "X")) ∧
    finalFileOf (runMain RC9) (versionFileName "X") =
      some (mkFileContent ShortNote "X" ((featOccsOf RC9 "enum" "X").getLastD "")
        (dep0 (allRequires RC9) "enum" "X")) ∧
    warnCount (warnsAllOf (runMain RC9)) "X" = 0) :=
  ⟨by decide, by decide, by decide,
   C9_cross_kind_overwrite RC9 "X" (by decide) (by decide) (by decide)
     (by decide) (by decide)⟩

/-- C10: for every feature-introduced symbol of the processed entry type,
if some matching require-group comment contains the marker phrase but its
fourth- through second-from-last space-delimited words are not exactly
"deprecated in OpenCL", the run aborts with an assertion failure. -/
theorem C10_marker_position_assert (reg : Registry) (et : String)
    (printer : String → String → Option String → String) (name c : String)
    (hF : featOccsOf reg et name ≠ [])
    (hmem : c ∈ matchingComments (allRequires reg) et name)
    (hmk : containsMarker c = true)
    (hsl : sliceOf c ≠ marker) :
    isErrb (processXml reg et printer) = true := by
  have hb : (sliceOf c == marker) = false := by rw [beq_eq_false_iff_ne]; exact hsl
  have hscan : ∃ e, scanDeprecation (allRequires reg) et name = .error e := by
    unfold scanDeprecation
    exact scanFold_bad_err _ none c hmem hmk hb
  obtain ⟨p, herr, hcnt⟩ := processXml_aborts reg et printer name hscan hF
  rw [herr]
  rfl

/-- C10 witness: in `RC10` the comment "deprecated in OpenCL 2.0 tail"
contains the marker phrase but not immediately before the final token, so
the run over the commands aborts. -/
theorem C10_witness :
    featOccsOf RC10 "command" "clX" ≠ [] ∧
    ("deprecated in OpenCL 2.0 tail" ∈
      matchingComments (allRequires RC10) "command" "clX") ∧
    containsMarker "deprecated in OpenCL 2.0 tail" = true ∧
    sliceOf "deprecated in OpenCL 2.0 tail" ≠ marker ∧
    isErrb (processXml RC10 "command" FullNote) = true :=
  ⟨by decide, by decide, by decide, by decide,
   C10_marker_position_assert RC10 "command" FullNote "clX" "deprecated in OpenCL 2.0 tail"
     (by decide) (by decide) (by decide) (by decide)⟩
